import Mathlib

/-!
Verification of the recursive-descent-parser repository: a shallow
embedding of its three core modules (tokenizer, parser, tree layout) and
proofs of the specification claims about them.

Source files embedded:
* `src/compiler/tokenizer.js` — lexical analysis of arithmetic expressions
* the parser module (`parser.js`) — LL(1) recursive descent with step trace
* `src/compiler/treeLayout.js` — x/y layout of the parse tree
-/

set_option maxHeartbeats 1000000
set_option linter.unnecessarySimpa false

namespace RDP

/-! ## Tokenizer (`tokenizer.js`) -/

/-- The `TokenType` string-constant enum of `tokenizer.js`.  The JS values
are distinct string literals, so an inductive type is a faithful model of
`===` comparison on them. -/
inductive Ty where
  | NUMBER | ID | PLUS | MINUS | STAR | SLASH | LPAREN | RPAREN | EOF
deriving DecidableEq, Repr

/-- The string stored in the JS `TokenType` constant for each member. -/
def Ty.str : Ty → String
  | .NUMBER => "NUMBER"
  | .ID => "ID"
  | .PLUS => "PLUS"
  | .MINUS => "MINUS"
  | .STAR => "STAR"
  | .SLASH => "SLASH"
  | .LPAREN => "LPAREN"
  | .RPAREN => "RPAREN"
  | .EOF => "EOF"

/-- A token, `createToken(type, value, pos, end)` of `tokenizer.js`.
`pos` is an `Int` because the parser's synthetic end-of-stream token uses
position `-1`; the tokenizer itself only produces non-negative positions.
The JS field `end` is a Lean keyword and is named `endp` here. -/
structure Token where
  ty : Ty
  value : String
  pos : Int
  endp : Int
deriving DecidableEq, Repr

/-- Result record of `tokenize`: `{ tokens, error, errorPos }`. -/
structure TokRes where
  tokens : List Token
  error : Option String
  errorPos : Option Int
deriving DecidableEq, Repr

/-- The whitespace test `/\s/` of the tokenizer.  ECMAScript `\s` matches
the WhiteSpace and LineTerminator productions: TAB, LF, VT, FF, CR, SPACE,
NBSP (U+00A0), OGHAM SPACE MARK (U+1680), the Zs spaces U+2000–U+200A,
LINE SEPARATOR (U+2028), PARAGRAPH SEPARATOR (U+2029), NARROW NO-BREAK
SPACE (U+202F), MEDIUM MATHEMATICAL SPACE (U+205F), IDEOGRAPHIC SPACE
(U+3000) and ZWNBSP (U+FEFF). -/
def isWs (c : Char) : Bool :=
  c = ' ' || c = '\t' || c = '\n' || c = '\r' || c = '\x0b' || c = '\x0c' ||
  c.toNat = 0xA0 || c.toNat = 0x1680 ||
  (0x2000 ≤ c.toNat && c.toNat ≤ 0x200A) ||
  c.toNat = 0x2028 || c.toNat = 0x2029 || c.toNat = 0x202F ||
  c.toNat = 0x205F || c.toNat = 0x3000 || c.toNat = 0xFEFF

/-- The `SINGLE_CHAR_TOKENS` map of `tokenizer.js`. -/
def singleTok : Char → Option Ty
  | '+' => some .PLUS
  | '-' => some .MINUS
  | '*' => some .STAR
  | '/' => some .SLASH
  | '(' => some .LPAREN
  | ')' => some .RPAREN
  | _ => none

/-- The identifier-start test `/[a-zA-Z_]/`. -/
def isIdStart (c : Char) : Bool := c.isAlpha || c = '_'

/-- The identifier-continuation test `/[a-zA-Z0-9_]/`. -/
def isIdCont (c : Char) : Bool := c.isAlpha || c.isDigit || c = '_'

/-- The digit-run loop of `tokenize` (lines 97–103): consume digits and at
most one `.`; a second `.` stops the run and is left unconsumed.  The
`Bool` argument is the `hasDecimal` flag.  Returns the consumed characters
and the remaining ones. -/
def scanNumTail : List Char → Bool → List Char × List Char
  | [], _ => ([], [])
  | c :: cs, hasDec =>
    if c.isDigit then
      let r := scanNumTail cs hasDec
      (c :: r.1, r.2)
    else if c = '.' then
      if hasDec then ([], c :: cs)
      else
        let r := scanNumTail cs true
        (c :: r.1, r.2)
    else ([], c :: cs)

/-- The identifier-run loop of `tokenize` (lines 114–116). -/
def scanIdTail : List Char → List Char × List Char
  | [] => ([], [])
  | c :: cs =>
    if isIdCont c then
      let r := scanIdTail cs
      (c :: r.1, r.2)
    else ([], c :: cs)

theorem scanNumTail_append (l : List Char) (b : Bool) :
    (scanNumTail l b).1 ++ (scanNumTail l b).2 = l := by
  induction l generalizing b with
  | nil => simp [scanNumTail]
  | cons c cs ih =>
    simp only [scanNumTail]
    split
    · simpa using ih b
    · split
      · split
        · simp
        · simpa using ih true
      · simp

theorem scanNumTail_len (l : List Char) (b : Bool) :
    (scanNumTail l b).2.length ≤ l.length := by
  conv_rhs => rw [← scanNumTail_append l b]
  simp

theorem scanIdTail_append (l : List Char) :
    (scanIdTail l).1 ++ (scanIdTail l).2 = l := by
  induction l with
  | nil => simp [scanIdTail]
  | cons c cs ih =>
    simp only [scanIdTail]
    split
    · simpa using ih
    · simp

theorem scanIdTail_len (l : List Char) :
    (scanIdTail l).2.length ≤ l.length := by
  conv_rhs => rw [← scanIdTail_append l]
  simp

/-- `createToken` of `tokenizer.js`. -/
def mkTok (ty : Ty) (value : String) (pos endp : Int) : Token :=
  ⟨ty, value, pos, endp⟩

/-- The lexical error message
`` `Unexpected character '${char}' at position ${pos}` ``. -/
def lexMsg (c : Char) (pos : Nat) : String :=
  "Unexpected character '" ++ String.singleton c ++ "' at position " ++ Nat.repr pos

/-- Prefix a token onto a scan result, unless the result is the error
object: the error `return` of `tokenize` (lines 124–128) discards all
previously accumulated tokens, so an error result passes through
unchanged. -/
def prependTok (t : Token) (r : TokRes) : TokRes :=
  match r.error with
  | none => { r with tokens := t :: r.tokens }
  | some _ => r

/-- The scan loop of `tokenize` (lines 76–129) plus the EOF append
(line 132): `cs` is the rest of the input and `pos` the current position.
The loop consumes at least one character per iteration, so it is indexed
by fuel to keep the recursion structural (and hence kernel-evaluable);
`tokenize` supplies `|input| + 1` fuel, which the lemmas below show is
always enough (every branch either stops or consumes a character). -/
def scan : Nat → List Char → Nat → TokRes
  | 0, _, _ => ⟨[], none, none⟩
  | _ + 1, [], pos => ⟨[mkTok .EOF "EOF" pos pos], none, none⟩
  | fuel + 1, c :: rest, pos =>
    if isWs c then scan fuel rest (pos + 1)
    else
      match singleTok c with
      | some ty =>
        prependTok (mkTok ty (String.singleton c) pos (pos + 1)) (scan fuel rest (pos + 1))
      | none =>
        if c.isDigit then
          let r := scanNumTail rest false
          prependTok (mkTok .NUMBER (String.mk (c :: r.1)) pos (pos + 1 + r.1.length))
            (scan fuel r.2 (pos + 1 + r.1.length))
        else if isIdStart c then
          let r := scanIdTail rest
          prependTok (mkTok .ID (String.mk (c :: r.1)) pos (pos + 1 + r.1.length))
            (scan fuel r.2 (pos + 1 + r.1.length))
        else ⟨[], some (lexMsg c pos), some pos⟩

/-- `tokenize(input)` of `tokenizer.js`. -/
def tokenize (s : String) : TokRes := scan (s.data.length + 1) s.data 0

/-- Sanity check for the non-ASCII cases of `isWs`: a lone NBSP (U+00A0)
is matched by `/\s/` and skipped, so tokenizing it succeeds with just the
EOF token, exactly as in the JS tokenizer. -/
theorem tokenize_nbsp :
    tokenize (String.mk [Char.ofNat 0xA0]) =
      ⟨[mkTok .EOF "EOF" 1 1], none, none⟩ := by decide

/-! ## Parser (`parser.js`)

The JS module keeps five module-level variables — `tokens`, `currentIndex`,
`steps`, `nodeId`, `depth` — that every recursive-descent function reads and
writes, and it signals errors by throwing `ParseError`, caught in `parse`.
The embedding threads an explicit state record (`tokens`/`currentIndex`
combined into the remaining-token list `rem`) and returns errors in a sum
type.  A `ParseError` carries `message`, `pos` and `token`, where both
`message` and `pos` are computed by `parseError` from the same peeked
token; the embedding stores the `expected` string and the token and
recomputes the message where the JS reads it.

The mutually recursive grammar functions are indexed by fuel, as the
recursion is not structural; `parse` supplies `4 * |tokens| + 4` fuel,
which is proved sufficient (`parseE_no_fuelOut`). -/

/-- A step-log entry, `logStep` of `parser.js` (lines 67–77).
`timestamp` is `steps.length` at append time. -/
structure Step where
  rule : String
  action : String
  token : String
  tokenType : String
  depth : Nat
  timestamp : Nat
deriving DecidableEq, Repr

/-- A parse-tree node, `createNode` of `parser.js`. -/
structure PNode where
  label : String
  children : List PNode
  id : Nat
deriving Repr

/-- The data of a thrown `ParseError`: `parseError(expected)` builds the
message and position from `expected` and the peeked token. -/
structure PErr where
  expected : String
  token : Token
deriving DecidableEq, Repr

/-- The parser's module-level mutable state: remaining tokens
(`tokens[currentIndex:]`), the step log, the node-id counter and the
recursion-depth counter. -/
structure PSt where
  rem : List Token
  steps : List Step
  nodeId : Nat
  depth : Nat
deriving Repr

/-- Outcome of one recursive-descent function: normal return, a thrown
`ParseError` (which in JS skips the `depth--` but leaves the logged steps
in place, hence the state on both sides), or fuel exhaustion (proved
unreachable for the fuel `parse` supplies). -/
inductive PRes (α : Type) where
  | ok (a : α) (st : PSt)
  | err (e : PErr) (st : PSt)
  | fuelOut (st : PSt)
deriving Repr

/-- `peek()` of `parser.js`: the current token, or the synthetic EOF object
`{ type: EOF, value: 'EOF', pos: -1 }` past the end of the stream. -/
def synthEOF : Token := ⟨.EOF, "EOF", -1, -1⟩

def peek (rem : List Token) : Token := rem.headD synthEOF

/-- `consume()` of `parser.js`: advance past the current token. -/
def consume (st : PSt) : PSt := { st with rem := st.rem.tail }

/-- `logStep(rule, action)` of `parser.js`: every call site lets the token
argument default to `peek()`. -/
def logStep (st : PSt) (rule action : String) : PSt :=
  let tok := peek st.rem
  { st with
    steps := st.steps ++
      [⟨rule, action, tok.value, tok.ty.str, st.depth, st.steps.length⟩] }

/-- `createNode(label, children)` of `parser.js`. -/
def createNode (st : PSt) (label : String) (children : List PNode) :
    PNode × PSt :=
  (⟨label, children, st.nodeId⟩, { st with nodeId := st.nodeId + 1 })

/-- `parseError(expected)` of `parser.js`: throw with the peeked token. -/
def throwErr (st : PSt) (expected : String) : PRes PNode :=
  .err ⟨expected, peek st.rem⟩ st

/-- The message string a `ParseError` carries:
`` `Syntax Error${posInfo}: Expected ${expected}, but found ${got}` ``. -/
def mkMessage (e : PErr) : String :=
  "Syntax Error" ++
    (if 0 ≤ e.token.pos then " at position " ++ Int.repr e.token.pos else "") ++
    ": Expected " ++ e.expected ++ ", but found " ++
    (if e.token.ty = .EOF then "end of input" else "'" ++ e.token.value ++ "'")

mutual

/-- `parseE` of `parser.js`: `E → T E'`. -/
def parseE : Nat → PSt → PRes PNode
  | 0, st => .fuelOut st
  | f + 1, st0 =>
    let st := logStep { st0 with depth := st0.depth + 1 } "E → T E'" "Enter E"
    match parseT f st with
    | .fuelOut s => .fuelOut s
    | .err e s => .err e s
    | .ok tN s =>
      match parseEPrime f s with
      | .fuelOut s2 => .fuelOut s2
      | .err e s2 => .err e s2
      | .ok eN s2 =>
        let p := createNode s2 "E" [tN, eN]
        let s3 := logStep p.2 "E → T E'" "Exit E"
        .ok p.1 { s3 with depth := s3.depth - 1 }

/-- `parseEPrime` of `parser.js`: `E' → + T E' | - T E' | ε`. -/
def parseEPrime : Nat → PSt → PRes PNode
  | 0, st => .fuelOut st
  | f + 1, st0 =>
    let st : PSt := { st0 with depth := st0.depth + 1 }
    let tok := peek st.rem
    if tok.ty = .PLUS then
      let st := consume (logStep st "E' → + T E'" "Match '+'")
      let p := createNode st "+" []
      match parseT f p.2 with
      | .fuelOut s => .fuelOut s
      | .err e s => .err e s
      | .ok tN s =>
        match parseEPrime f s with
        | .fuelOut s2 => .fuelOut s2
        | .err e s2 => .err e s2
        | .ok eN s2 =>
          let q := createNode s2 "E'" [p.1, tN, eN]
          .ok q.1 { q.2 with depth := q.2.depth - 1 }
    else if tok.ty = .MINUS then
      let st := consume (logStep st "E' → - T E'" "Match '-'")
      let p := createNode st "-" []
      match parseT f p.2 with
      | .fuelOut s => .fuelOut s
      | .err e s => .err e s
      | .ok tN s =>
        match parseEPrime f s with
        | .fuelOut s2 => .fuelOut s2
        | .err e s2 => .err e s2
        | .ok eN s2 =>
          let q := createNode s2 "E'" [p.1, tN, eN]
          .ok q.1 { q.2 with depth := q.2.depth - 1 }
    else
      let st := logStep st "E' → ε" "Epsilon (no match needed)"
      let p := createNode st "ε" []
      let q := createNode p.2 "E'" [p.1]
      .ok q.1 { q.2 with depth := q.2.depth - 1 }

/-- `parseT` of `parser.js`: `T → F T'`. -/
def parseT : Nat → PSt → PRes PNode
  | 0, st => .fuelOut st
  | f + 1, st0 =>
    let st := logStep { st0 with depth := st0.depth + 1 } "T → F T'" "Enter T"
    match parseF f st with
    | .fuelOut s => .fuelOut s
    | .err e s => .err e s
    | .ok fN s =>
      match parseTPrime f s with
      | .fuelOut s2 => .fuelOut s2
      | .err e s2 => .err e s2
      | .ok tN s2 =>
        let p := createNode s2 "T" [fN, tN]
        let s3 := logStep p.2 "T → F T'" "Exit T"
        .ok p.1 { s3 with depth := s3.depth - 1 }

/-- `parseTPrime` of `parser.js`: `T' → * F T' | / F T' | ε`. -/
def parseTPrime : Nat → PSt → PRes PNode
  | 0, st => .fuelOut st
  | f + 1, st0 =>
    let st : PSt := { st0 with depth := st0.depth + 1 }
    let tok := peek st.rem
    if tok.ty = .STAR then
      let st := consume (logStep st "T' → * F T'" "Match '*'")
      let p := createNode st "*" []
      match parseF f p.2 with
      | .fuelOut s => .fuelOut s
      | .err e s => .err e s
      | .ok fN s =>
        match parseTPrime f s with
        | .fuelOut s2 => .fuelOut s2
        | .err e s2 => .err e s2
        | .ok tN s2 =>
          let q := createNode s2 "T'" [p.1, fN, tN]
          .ok q.1 { q.2 with depth := q.2.depth - 1 }
    else if tok.ty = .SLASH then
      let st := consume (logStep st "T' → / F T'" "Match '/'")
      let p := createNode st "/" []
      match parseF f p.2 with
      | .fuelOut s => .fuelOut s
      | .err e s => .err e s
      | .ok fN s =>
        match parseTPrime f s with
        | .fuelOut s2 => .fuelOut s2
        | .err e s2 => .err e s2
        | .ok tN s2 =>
          let q := createNode s2 "T'" [p.1, fN, tN]
          .ok q.1 { q.2 with depth := q.2.depth - 1 }
    else
      let st := logStep st "T' → ε" "Epsilon (no match needed)"
      let p := createNode st "ε" []
      let q := createNode p.2 "T'" [p.1]
      .ok q.1 { q.2 with depth := q.2.depth - 1 }

/-- `parseF` of `parser.js`: `F → ( E ) | id | number`. -/
def parseF : Nat → PSt → PRes PNode
  | 0, st => .fuelOut st
  | f + 1, st0 =>
    let st : PSt := { st0 with depth := st0.depth + 1 }
    let tok := peek st.rem
    if tok.ty = .LPAREN then
      let st := consume (logStep st "F → ( E )" "Match '('")
      let p := createNode st "(" []
      match parseE f p.2 with
      | .fuelOut s => .fuelOut s
      | .err e s => .err e s
      | .ok eN s =>
        if (peek s.rem).ty = .RPAREN then
          let s := consume (logStep s "F → ( E )" "Match ')'")
          let q := createNode s ")" []
          let n := createNode q.2 "F" [p.1, eN, q.1]
          .ok n.1 { n.2 with depth := n.2.depth - 1 }
        else throwErr s "')'"
    else if tok.ty = .NUMBER then
      let st := logStep st "F → number" ("Match number '" ++ tok.value ++ "'")
      let st := consume st
      let p := createNode st tok.value []
      let n := createNode p.2 "F" [p.1]
      .ok n.1 { n.2 with depth := n.2.depth - 1 }
    else if tok.ty = .ID then
      let st := logStep st "F → id" ("Match identifier '" ++ tok.value ++ "'")
      let st := consume st
      let p := createNode st tok.value []
      let n := createNode p.2 "F" [p.1]
      .ok n.1 { n.2 with depth := n.2.depth - 1 }
    else throwErr st "number, identifier, or \"(\""

end

/-- Result record of `parse`: `{ tree, steps, error, errorPos }`. -/
structure ParseResult where
  tree : Option PNode
  steps : List Step
  error : Option String
  errorPos : Option Int
deriving Repr

/-- Fresh parser state for a call of `parse` on `tokenArray`
(the resets in lines 288–293). -/
def initSt (ts : List Token) : PSt := ⟨ts, [], 0, 0⟩

/-- Fuel supplied for one `parse` call; proved sufficient below. -/
def initFuel (ts : List Token) : Nat := 4 * ts.length + 4

/-- `parse(tokenArray)` of `parser.js`, also returning the final values of
the module-level variables (which in JS persist after the call). -/
def parseRun (ts : List Token) : ParseResult × PSt :=
  match parseE (initFuel ts) (initSt ts) with
  | .fuelOut s => (⟨none, [], none, none⟩, s)
  | .err e s =>
    let s2 := logStep s "✗ Parse Error" (mkMessage e)
    (⟨none, s2.steps, some (mkMessage e), some e.token.pos⟩, s2)
  | .ok tree s =>
    if (peek s.rem).ty = .EOF then
      let s2 := logStep s "✓ Parse Complete" "Expression parsed successfully!"
      (⟨some tree, s2.steps, none, none⟩, s2)
    else
      let e : PErr := ⟨"end of expression", peek s.rem⟩
      let s2 := logStep s "✗ Parse Error" (mkMessage e)
      (⟨none, s2.steps, some (mkMessage e), some e.token.pos⟩, s2)

/-- `parse(tokenArray)`, the value returned to the caller. -/
def parse (ts : List Token) : ParseResult := (parseRun ts).1

/-- A call of `parse` as seen at the module level: the state `g` left by
any previous call is overwritten wholesale by the resets in lines 288–293,
so the call ignores it. -/
def parseCall (ts : List Token) (_g : PSt) : ParseResult × PSt := parseRun ts

/-! ## Tree layout (`treeLayout.js`)

`computeTreeLayout` mutates the tree it is given: `assignDepth` writes a
`_depth` property and `assignX` writes an `_x` property into every node.
The embedding makes the mutation explicit: a tree node carries the two
scratch properties as `Option` fields (`none` = property absent), the two
passes are tree-to-tree functions, and `computeTreeLayoutM` returns both
the layout record and the tree as the caller's reference sees it after the
call. -/

/-- A tree node as `treeLayout.js` sees it: the parse-tree fields `label`,
`children`, `id`, plus the scratch properties `_x` (here `sx`) and
`_depth` (here `sdepth`) that the layout passes write into the node. -/
structure TNode where
  label : String
  children : List TNode
  id : Nat
  sx : Option ℚ
  sdepth : Option ℕ
deriving Repr

def NODE_WIDTH : ℚ := 60
def NODE_HEIGHT : ℚ := 50
def LEVEL_HEIGHT : ℚ := 80
def MIN_SIBLING_SEP : ℚ := 20

/-- A node of the returned layout (pushed by `collect`, lines 70–80). -/
structure LNode where
  id : Nat
  label : String
  x : ℚ
  y : ℚ
  depth : ℕ
  isLeaf : Bool
  isEpsilon : Bool
  isOperator : Bool
  isNonTerminal : Bool
deriving DecidableEq, Repr

/-- An edge of the returned layout; the JS nested points `from: {x, y}`
and `to: {x, y}` are flattened into four coordinate fields. -/
structure Edge where
  fromId : Nat
  toId : Nat
  fromX : ℚ
  fromY : ℚ
  toX : ℚ
  toY : ℚ
deriving DecidableEq, Repr

/-- The record returned by `computeTreeLayout`. -/
structure LayoutRes where
  nodes : List LNode
  edges : List Edge
  width : ℚ
  height : ℚ
deriving DecidableEq, Repr

mutual

/-- `assignDepth(node, d)` of `treeLayout.js` (lines 115–122): pre-order
pass writing `_depth` into every node. -/
def assignDepth : TNode → ℕ → TNode
  | ⟨lab, cs, i, x, _⟩, d => ⟨lab, assignDepthL cs (d + 1), i, x, some d⟩

def assignDepthL : List TNode → ℕ → List TNode
  | [], _ => []
  | c :: cs, d => assignDepth c d :: assignDepthL cs d

end

/-- The `_x` value of the node at the head of a list (used for
`node.children[0]._x`); the default is never consulted, as `assignX` is
only applied with a non-empty, already-processed child list. -/
def headX (l : List TNode) : ℚ := (l.headD ⟨"", [], 0, none, none⟩).sx.getD 0

/-- `node.children[node.children.length - 1]._x`. -/
def lastX (l : List TNode) : ℚ := (l.getLastD ⟨"", [], 0, none, none⟩).sx.getD 0

mutual

/-- `assignX(node)` of `treeLayout.js` (lines 41–58) with the closed-over
counter `nextX` made explicit: post-order pass that gives each leaf the
current `nextX` (advancing it by `NODE_WIDTH + MIN_SIBLING_SEP`) and each
internal node the midpoint of its first and last child's `_x`. -/
def assignX : TNode → ℚ → TNode × ℚ
  | ⟨lab, [], i, _, d⟩, nextX =>
    (⟨lab, [], i, some nextX, d⟩, nextX + NODE_WIDTH + MIN_SIBLING_SEP)
  | ⟨lab, c :: cs, i, _, d⟩, nextX =>
    let r := assignXL (c :: cs) nextX
    (⟨lab, r.1, i, some ((headX r.1 + lastX r.1) / 2), d⟩, r.2)

def assignXL : List TNode → ℚ → List TNode × ℚ
  | [], nextX => ([], nextX)
  | c :: cs, nextX =>
    let r := assignX c nextX
    let r2 := assignXL cs r.2
    (r.1 :: r2.1, r2.2)

end

/-- Accumulator for `collect` (lines 61–64): the `nodes` and `edges`
arrays and the `maxX`/`maxDepth` trackers. -/
structure CollSt where
  nodes : List LNode
  edges : List Edge
  maxX : ℚ
  maxDepth : ℕ
deriving Repr

/-- The `LNode` that `collect` pushes for a tree node (lines 70–80). -/
def mkLNode (t : TNode) : LNode :=
  let x := t.sx.getD 0 + NODE_WIDTH / 2
  let y := (t.sdepth.getD 0 : ℚ) * LEVEL_HEIGHT + NODE_HEIGHT / 2 + 20
  { id := t.id, label := t.label, x := x, y := y, depth := t.sdepth.getD 0,
    isLeaf := t.children.isEmpty,
    isEpsilon := t.label = "ε",
    isOperator := ["+", "-", "*", "/", "(", ")"].contains t.label,
    isNonTerminal := ["E", "E'", "T", "T'", "F"].contains t.label }

mutual

/-- `collect(node)` of `treeLayout.js` (lines 66–100): pre-order pass
pushing layout nodes, edges and the running maxima. -/
def collect : TNode → CollSt → CollSt
  | t, acc =>
    let n := mkLNode t
    let acc1 : CollSt :=
      { nodes := acc.nodes ++ [n],
        edges := acc.edges,
        maxX := if n.x > acc.maxX then n.x else acc.maxX,
        maxDepth := if n.depth > acc.maxDepth then n.depth else acc.maxDepth }
    collectKids t.id n.x n.y t.children acc1
termination_by t _ => sizeOf t
decreasing_by cases t with | mk lab cs i x d => simp; omega

def collectKids : Nat → ℚ → ℚ → List TNode → CollSt → CollSt
  | _, _, _, [], acc => acc
  | pid, px, py, c :: cs, acc =>
    let childX := c.sx.getD 0 + NODE_WIDTH / 2
    let childY := (c.sdepth.getD 0 : ℚ) * LEVEL_HEIGHT + NODE_HEIGHT / 2 + 20
    let acc1 : CollSt :=
      { acc with
        edges := acc.edges ++ [⟨pid, c.id, px, py + 18, childX, childY - 18⟩] }
    collectKids pid px py cs (collect c acc1)
termination_by _ _ _ cs _ => sizeOf cs
decreasing_by
  all_goals simp
  all_goals omega

end

/-- The decorated tree produced by the two layout passes on `root`:
what the caller's tree looks like after `computeTreeLayout(root)`. -/
def layoutTree (t : TNode) : TNode := (assignX (assignDepth t 0) 0).1

/-- `computeTreeLayout(root)` of `treeLayout.js`, paired with the tree as
left by the call (the JS function mutates `root` in place). -/
def computeTreeLayoutM (root : Option TNode) : LayoutRes × Option TNode :=
  match root with
  | none => (⟨[], [], 0, 0⟩, none)
  | some r =>
    let r2 := layoutTree r
    let c := collect r2 ⟨[], [], 0, 0⟩
    (⟨c.nodes, c.edges, c.maxX + NODE_WIDTH + 40,
      ((c.maxDepth : ℚ) + 1) * LEVEL_HEIGHT + 60⟩, some r2)

/-! ## Measurement functions used by the claim statements -/

/-- The state carried by any parser outcome. -/
def stOf : PRes PNode → PSt
  | .ok _ s => s
  | .err _ s => s
  | .fuelOut s => s

/-- Whether an outcome is fuel exhaustion. -/
def isFuelOut : PRes PNode → Bool
  | .fuelOut _ => true
  | _ => false

/-- Decidable condition of claim C4: the run of `parseE` inside `parse ts`
returns normally but the lookahead afterwards is not EOF. -/
def parsedEButTrailing (ts : List Token) : Bool :=
  match parseE (initFuel ts) (initSt ts) with
  | .ok _ s => !((peek s.rem).ty == Ty.EOF)
  | _ => false

/-- A character on which the scan loop of `tokenize` reaches its
`Unexpected character` branch: not whitespace, not a single-character
token, not a digit, not an identifier start. -/
def beginsNoToken (c : Char) : Bool :=
  !(isWs c) && (singleTok c).isNone && !(c.isDigit) && !(isIdStart c)

/-- A character no token of any kind can contain: `beginsNoToken` and
also not `.` (a dot can still be absorbed into a NUMBER token). -/
def hardInvalid (c : Char) : Bool := beginsNoToken c && !(c = '.')

mutual

/-- Number of nodes of a parse tree. -/
def sizeP : PNode → Nat
  | ⟨_, cs, _⟩ => sizePL cs + 1

def sizePL : List PNode → Nat
  | [] => 0
  | c :: cs => sizeP c + sizePL cs

end

mutual

/-- The node ids of a parse tree in post-order (children left to right,
then the node itself) — the order in which `parse` creates the nodes. -/
def postIds : PNode → List Nat
  | ⟨_, cs, i⟩ => postIdsL cs ++ [i]

def postIdsL : List PNode → List Nat
  | [] => []
  | c :: cs => postIds c ++ postIdsL cs

end

/-- Claim C9's id condition on a returned tree: the ids in creation
order are `0, 1, …, size - 1`. -/
def treeIdsOk : Option PNode → Bool
  | none => true
  | some t => postIds t == List.range (sizeP t)

/-- Consecutive steps never differ in `depth` by more than one, in either
direction (the literal reading of claim C3). -/
def stepsAdjOk : List Step → Bool
  | [] => true
  | [_] => true
  | a :: b :: t => (b.depth ≤ a.depth + 1 && a.depth ≤ b.depth + 1) && stepsAdjOk (b :: t)

mutual

/-- Number of leaves of a layout tree (`children` empty). -/
def numLeavesT : TNode → Nat
  | ⟨_, [], _, _, _⟩ => 1
  | ⟨_, c :: cs, _, _, _⟩ => numLeavesTL (c :: cs)

def numLeavesTL : List TNode → Nat
  | [] => 0
  | c :: cs => numLeavesT c + numLeavesTL cs

end

mutual

/-- The layout nodes `collect` pushes for a tree, in push order
(pre-order). -/
def emitNodes : TNode → List LNode
  | ⟨lab, cs, i, x, d⟩ => mkLNode ⟨lab, cs, i, x, d⟩ :: emitNodesL cs

def emitNodesL : List TNode → List LNode
  | [] => []
  | c :: cs => emitNodes c ++ emitNodesL cs

end

mutual

/-- Claim C8's centering condition on a decorated tree: every node with
children sits at the midpoint of its first and last child's x-coordinate
(the coordinates being the `x` values `collect` computes,
`_x + NODE_WIDTH / 2`). -/
def midOK : TNode → Bool
  | ⟨_, [], _, _, _⟩ => true
  | ⟨_, c :: cs, _, x, _⟩ =>
    (x.getD 0 + NODE_WIDTH / 2 ==
      ((headX (c :: cs) + NODE_WIDTH / 2) + (lastX (c :: cs) + NODE_WIDTH / 2)) / 2) &&
    midOKL (c :: cs)

def midOKL : List TNode → Bool
  | [] => true
  | c :: cs => midOK c && midOKL cs

end

/-- Successive values each exceed the previous by exactly `d`. -/
def spacedBy (d : ℚ) : List ℚ → Bool
  | [] => true
  | [_] => true
  | a :: b :: t => (b == a + d) && spacedBy d (b :: t)

/-- The x-coordinates of the leaf entries of a layout-node list, in list
order. -/
def leafXs (ns : List LNode) : List ℚ :=
  (ns.filter (fun n => n.isLeaf)).map (fun n => n.x)

mutual

/-- A tree with the scratch properties `_x`/`_depth` removed: the part of
a node `computeTreeLayout` is not allowed to change, per claim C2. -/
def eraseT : TNode → TNode
  | ⟨lab, cs, i, _, _⟩ => ⟨lab, eraseTL cs, i, none, none⟩

def eraseTL : List TNode → List TNode
  | [] => []
  | c :: cs => eraseT c :: eraseTL cs

end

mutual

/-- A tree with only the scratch property `_x` removed. -/
def eraseX : TNode → TNode
  | ⟨lab, cs, i, _, d⟩ => ⟨lab, eraseXL cs, i, none, d⟩

def eraseXL : List TNode → List TNode
  | [] => []
  | c :: cs => eraseX c :: eraseXL cs

end

mutual

/-- The x-coordinates (`_x + NODE_WIDTH / 2`, the value `collect` pushes)
of the leaves of a layout tree, left to right. -/
def leafXsT : TNode → List ℚ
  | ⟨_, [], _, x, _⟩ => [x.getD 0 + NODE_WIDTH / 2]
  | ⟨_, c :: cs, _, _, _⟩ => leafXsTL (c :: cs)

def leafXsTL : List TNode → List ℚ
  | [] => []
  | c :: cs => leafXsT c ++ leafXsTL cs

end

/-- `n` values starting at `a`, each `NODE_WIDTH + MIN_SIBLING_SEP`
further along. -/
def arithSeq (a : ℚ) : ℕ → List ℚ
  | 0 => []
  | n + 1 => a :: arithSeq (a + (NODE_WIDTH + MIN_SIBLING_SEP)) n

/-! ## Tokenizer lemmas -/

@[simp] theorem prependTok_error (t : Token) (r : TokRes) :
    (prependTok t r).error = r.error := by
  unfold prependTok; split <;> simp_all

@[simp] theorem prependTok_errorPos (t : Token) (r : TokRes) :
    (prependTok t r).errorPos = r.errorPos := by
  unfold prependTok; split <;> simp_all

theorem prependTok_tokens_of_ok (t : Token) (r : TokRes) (h : r.error = none) :
    (prependTok t r).tokens = t :: r.tokens := by
  unfold prependTok; split <;> simp_all

theorem prependTok_eq_of_err (t : Token) (r : TokRes) (h : r.error ≠ none) :
    prependTok t r = r := by
  unfold prependTok; split <;> simp_all

theorem scanNumTail_mem (l : List Char) (b : Bool) :
    ∀ x ∈ (scanNumTail l b).1, x.isDigit ∨ x = '.' := by
  induction l generalizing b with
  | nil => simp [scanNumTail]
  | cons c cs ih =>
    intro x hx
    simp only [scanNumTail] at hx
    split at hx
    · rcases List.mem_cons.1 hx with h | h
      · left; simpa [h] using ‹c.isDigit = true›
      · exact ih b x h
    · split at hx
      · split at hx
        · simp at hx
        · rcases List.mem_cons.1 hx with h | h
          · right; simp_all
          · exact ih true x h
      · simp at hx

theorem scanIdTail_mem (l : List Char) :
    ∀ x ∈ (scanIdTail l).1, isIdCont x := by
  induction l with
  | nil => simp [scanIdTail]
  | cons c cs ih =>
    intro x hx
    simp only [scanIdTail] at hx
    split at hx
    · rcases List.mem_cons.1 hx with h | h
      · subst h; assumption
      · exact ih x h
    · simp at hx

/-- On success, `scan` produces a token list that ends with exactly one
EOF token positioned at the end of the input, and no other EOF token. -/
theorem scan_success :
    ∀ (n : ℕ) (cs : List Char) (pos : ℕ), cs.length < n →
      (scan n cs pos).error = none →
      ∃ pre, (scan n cs pos).tokens =
          pre ++ [mkTok .EOF "EOF" (pos + cs.length) (pos + cs.length)] ∧
        ∀ t ∈ pre, t.ty ≠ .EOF := by
  intro n
  induction n with
  | zero =>
    intro cs pos hlen
    exact absurd hlen (Nat.not_lt_zero _)
  | succ n ih =>
    intro cs pos hlen herr
    match cs with
    | [] => exact ⟨[], by simp [scan], by simp⟩
    | c :: rest =>
      rw [scan] at herr ⊢
      by_cases hws : isWs c
      · simp only [if_pos hws] at herr ⊢
        have hlen' : rest.length < n := by
          simp only [List.length_cons] at hlen; omega
        obtain ⟨pre, hpre, hno⟩ := ih rest (pos + 1) hlen' herr
        have hp : ((pos + 1 : ℕ) + (rest.length : ℕ) : Int) =
            (pos : ℕ) + ((c :: rest).length : ℕ) := by
          simp only [List.length_cons]; omega
        rw [hp] at hpre
        exact ⟨pre, hpre, hno⟩
      · simp only [if_neg hws] at herr ⊢
        rcases hst : singleTok c with _ | ty
        · simp only [hst] at herr ⊢
          by_cases hd : c.isDigit
          · simp only [if_pos hd] at herr ⊢
            rw [prependTok_error] at herr
            have hsplit := scanNumTail_append rest false
            have hl2 : (scanNumTail rest false).2.length < n := by
              have h1 : (scanNumTail rest false).1.length +
                  (scanNumTail rest false).2.length = rest.length := by
                rw [← List.length_append, hsplit]
              simp at hlen; omega
            obtain ⟨pre, hpre, hno⟩ :=
              ih (scanNumTail rest false).2 (pos + 1 + (scanNumTail rest false).1.length)
                hl2 herr
            have h1 : (scanNumTail rest false).1.length +
                (scanNumTail rest false).2.length = rest.length := by
              rw [← List.length_append, hsplit]
            have hp : ((pos + 1 + (scanNumTail rest false).1.length : ℕ) +
                ((scanNumTail rest false).2.length : ℕ) : Int) =
                (pos : ℕ) + ((c :: rest).length : ℕ) := by
              simp only [List.length_cons]; omega
            rw [hp] at hpre
            rw [prependTok_tokens_of_ok _ _ herr, hpre]
            refine ⟨mkTok .NUMBER (String.mk (c :: (scanNumTail rest false).1)) pos
              (pos + 1 + (scanNumTail rest false).1.length) :: pre, by simp, ?_⟩
            intro t ht
            rcases List.mem_cons.1 ht with h | h
            · subst h; simp [mkTok]
            · exact hno t h
          · simp only [if_neg hd] at herr ⊢
            by_cases hid : isIdStart c
            · simp only [if_pos hid] at herr ⊢
              rw [prependTok_error] at herr
              have hsplit := scanIdTail_append rest
              have hl2 : (scanIdTail rest).2.length < n := by
                have h1 : (scanIdTail rest).1.length +
                    (scanIdTail rest).2.length = rest.length := by
                  rw [← List.length_append, hsplit]
                simp at hlen; omega
              obtain ⟨pre, hpre, hno⟩ :=
                ih (scanIdTail rest).2 (pos + 1 + (scanIdTail rest).1.length) hl2 herr
              have h1 : (scanIdTail rest).1.length +
                  (scanIdTail rest).2.length = rest.length := by
                rw [← List.length_append, hsplit]
              have hp : ((pos + 1 + (scanIdTail rest).1.length : ℕ) +
                  ((scanIdTail rest).2.length : ℕ) : Int) =
                  (pos : ℕ) + ((c :: rest).length : ℕ) := by
                simp only [List.length_cons]; omega
              rw [hp] at hpre
              rw [prependTok_tokens_of_ok _ _ herr, hpre]
              refine ⟨mkTok .ID (String.mk (c :: (scanIdTail rest).1)) pos
                (pos + 1 + (scanIdTail rest).1.length) :: pre, by simp, ?_⟩
              intro t ht
              rcases List.mem_cons.1 ht with h | h
              · subst h; simp [mkTok]
              · exact hno t h
            · simp only [if_neg hid] at herr
              simp at herr
        · simp only [hst] at herr ⊢
          rw [prependTok_error] at herr
          have hlen' : rest.length < n := by
            simp only [List.length_cons] at hlen; omega
          obtain ⟨pre, hpre, hno⟩ := ih rest (pos + 1) hlen' herr
          have hp : ((pos + 1 : ℕ) + (rest.length : ℕ) : Int) =
              (pos : ℕ) + ((c :: rest).length : ℕ) := by
            simp only [List.length_cons]; omega
          rw [hp] at hpre
          rw [prependTok_tokens_of_ok _ _ herr, hpre]
          refine ⟨mkTok ty (String.singleton c) pos (pos + 1) :: pre, by simp, ?_⟩
          intro t ht
          rcases List.mem_cons.1 ht with h | h
          · subst h
            simp only [mkTok, ne_eq]
            intro hty
            rw [hty] at hst
            revert hst
            unfold singleTok
            split <;> simp
          · exact hno t h

/-! ## Parser lemmas: the remaining-token list only shrinks, and every
thrown error carries either a token of the stream or the synthetic EOF. -/

@[simp] theorem logStep_rem (st : PSt) (r a : String) : (logStep st r a).rem = st.rem := rfl

@[simp] theorem logStep_depth (st : PSt) (r a : String) : (logStep st r a).depth = st.depth := rfl

@[simp] theorem logStep_nodeId (st : PSt) (r a : String) : (logStep st r a).nodeId = st.nodeId := rfl

@[simp] theorem consume_rem (st : PSt) : (consume st).rem = st.rem.tail := rfl

@[simp] theorem consume_steps (st : PSt) : (consume st).steps = st.steps := rfl

@[simp] theorem consume_depth (st : PSt) : (consume st).depth = st.depth := rfl

@[simp] theorem consume_nodeId (st : PSt) : (consume st).nodeId = st.nodeId := rfl

@[simp] theorem createNode_snd_rem (st : PSt) (l : String) (cs : List PNode) :
    (createNode st l cs).2.rem = st.rem := rfl

@[simp] theorem createNode_snd_steps (st : PSt) (l : String) (cs : List PNode) :
    (createNode st l cs).2.steps = st.steps := rfl

@[simp] theorem createNode_snd_depth (st : PSt) (l : String) (cs : List PNode) :
    (createNode st l cs).2.depth = st.depth := rfl

@[simp] theorem createNode_snd_nodeId (st : PSt) (l : String) (cs : List PNode) :
    (createNode st l cs).2.nodeId = st.nodeId + 1 := rfl

@[simp] theorem createNode_fst (st : PSt) (l : String) (cs : List PNode) :
    (createNode st l cs).1 = ⟨l, cs, st.nodeId⟩ := rfl

@[simp] theorem stOf_ok (a : PNode) (s : PSt) : stOf (.ok a s) = s := rfl

@[simp] theorem stOf_err (e : PErr) (s : PSt) : stOf (.err e s) = s := rfl

@[simp] theorem stOf_fuelOut (s : PSt) : stOf (.fuelOut s) = s := rfl

theorem peek_mem_or_synth (rem : List Token) : peek rem ∈ rem ∨ peek rem = synthEOF := by
  cases rem <;> simp [peek]

/-- The invariant carried by every recursive-descent function: the final
remaining-token list is a suffix of the entry one, and a thrown error's
token is either a stream token or the synthetic EOF. -/
def RemSuf (st : PSt) (r : PRes PNode) : Prop :=
  (stOf r).rem <:+ st.rem ∧
    ∀ e s', r = .err e s' → e.token ∈ st.rem ∨ e.token = synthEOF

theorem RemSuf.through {st mid : PSt} {r : PRes PNode}
    (hmid : mid.rem <:+ st.rem) (h : RemSuf mid r) : RemSuf st r := by
  refine ⟨h.1.trans hmid, fun e s' he => ?_⟩
  rcases h.2 e s' he with hm | hm
  · exact Or.inl (hmid.subset hm)
  · exact Or.inr hm

theorem RemSuf.ofThrow {st cur : PSt} (hmid : cur.rem <:+ st.rem) (exp : String) :
    RemSuf st (throwErr cur exp) := by
  refine ⟨hmid, fun e s' he => ?_⟩
  unfold throwErr at he
  cases he
  rcases peek_mem_or_synth cur.rem with hm | hm
  · exact Or.inl (hmid.subset hm)
  · exact Or.inr hm

theorem RemSuf.ofOk {st fin : PSt} (hmid : fin.rem <:+ st.rem) (a : PNode) :
    RemSuf st (.ok a fin) :=
  ⟨hmid, fun e s' he => by cases he⟩

theorem RemSuf.ofFuelOut {st fin : PSt} (hmid : fin.rem <:+ st.rem) :
    RemSuf st (.fuelOut fin) :=
  ⟨hmid, fun e s' he => by cases he⟩

theorem remSuf_all (f : Nat) :
    (∀ st, RemSuf st (parseE f st)) ∧ (∀ st, RemSuf st (parseEPrime f st)) ∧
    (∀ st, RemSuf st (parseT f st)) ∧ (∀ st, RemSuf st (parseTPrime f st)) ∧
    (∀ st, RemSuf st (parseF f st)) := by
  induction f with
  | zero =>
    refine ⟨?_, ?_, ?_, ?_, ?_⟩ <;>
      exact fun st => RemSuf.ofFuelOut (List.suffix_refl _)
  | succ f ih =>
    obtain ⟨ihE, ihE', ihT, ihT', ihF⟩ := ih
    refine ⟨?_, ?_, ?_, ?_, ?_⟩
    · -- parseE
      intro st0
      simp only [parseE]
      rcases hT : parseT f (logStep { st0 with depth := st0.depth + 1 } "E → T E'" "Enter E")
        with ⟨tN, s⟩ | ⟨e, s⟩ | s <;> dsimp only
      · have h1 : RemSuf st0 (.ok tN s) := by
          have := ihT (logStep { st0 with depth := st0.depth + 1 } "E → T E'" "Enter E")
          rw [hT] at this
          exact this.through (by simp [List.suffix_refl])
        rcases hE : parseEPrime f s with ⟨eN, s2⟩ | ⟨e, s2⟩ | s2 <;> dsimp only
        · have h2 : RemSuf st0 (.ok eN s2) := by
            have := ihE' s
            rw [hE] at this
            exact this.through h1.1
          refine RemSuf.ofOk ?_ _
          simpa using h2.1
        · have := ihE' s
          rw [hE] at this
          exact this.through h1.1
        · have := ihE' s
          rw [hE] at this
          exact this.through h1.1
      · have := ihT (logStep { st0 with depth := st0.depth + 1 } "E → T E'" "Enter E")
        rw [hT] at this
        exact this.through (by simp [List.suffix_refl])
      · have := ihT (logStep { st0 with depth := st0.depth + 1 } "E → T E'" "Enter E")
        rw [hT] at this
        exact this.through (by simp [List.suffix_refl])
    · -- parseEPrime
      intro st0
      simp only [parseEPrime]
      by_cases hp : (peek { st0 with depth := st0.depth + 1 }.rem).ty = Ty.PLUS
      · simp only [if_pos hp]
        have hcons : (consume (logStep { st0 with depth := st0.depth + 1 }
            "E' → + T E'" "Match '+'")).rem <:+ st0.rem := by
          simp [List.tail_suffix]
        rcases hT : parseT f (createNode (consume (logStep { st0 with depth := st0.depth + 1 }
            "E' → + T E'" "Match '+'")) "+" []).2 with ⟨tN, s⟩ | ⟨e, s⟩ | s <;> dsimp only
        · have h1 : RemSuf st0 (.ok tN s) := by
            have := ihT (createNode (consume (logStep { st0 with depth := st0.depth + 1 }
              "E' → + T E'" "Match '+'")) "+" []).2
            rw [hT] at this
            exact this.through (by simpa using hcons)
          rcases hE : parseEPrime f s with ⟨eN, s2⟩ | ⟨e, s2⟩ | s2 <;> dsimp only
          · have h2 : RemSuf st0 (.ok eN s2) := by
              have := ihE' s
              rw [hE] at this
              exact this.through h1.1
            refine RemSuf.ofOk ?_ _
            simpa using h2.1
          · have := ihE' s
            rw [hE] at this
            exact this.through h1.1
          · have := ihE' s
            rw [hE] at this
            exact this.through h1.1
        · have := ihT (createNode (consume (logStep { st0 with depth := st0.depth + 1 }
            "E' → + T E'" "Match '+'")) "+" []).2
          rw [hT] at this
          exact this.through (by simpa using hcons)
        · have := ihT (createNode (consume (logStep { st0 with depth := st0.depth + 1 }
            "E' → + T E'" "Match '+'")) "+" []).2
          rw [hT] at this
          exact this.through (by simpa using hcons)
      · simp only [if_neg hp]
        by_cases hm : (peek { st0 with depth := st0.depth + 1 }.rem).ty = Ty.MINUS
        · simp only [if_pos hm]
          have hcons : (consume (logStep { st0 with depth := st0.depth + 1 }
              "E' → - T E'" "Match '-'")).rem <:+ st0.rem := by
            simp [List.tail_suffix]
          rcases hT : parseT f (createNode (consume (logStep { st0 with depth := st0.depth + 1 }
              "E' → - T E'" "Match '-'")) "-" []).2 with ⟨tN, s⟩ | ⟨e, s⟩ | s <;> dsimp only
          · have h1 : RemSuf st0 (.ok tN s) := by
              have := ihT (createNode (consume (logStep { st0 with depth := st0.depth + 1 }
                "E' → - T E'" "Match '-'")) "-" []).2
              rw [hT] at this
              exact this.through (by simpa using hcons)
            rcases hE : parseEPrime f s with ⟨eN, s2⟩ | ⟨e, s2⟩ | s2 <;> dsimp only
            · have h2 : RemSuf st0 (.ok eN s2) := by
                have := ihE' s
                rw [hE] at this
                exact this.through h1.1
              refine RemSuf.ofOk ?_ _
              simpa using h2.1
            · have := ihE' s
              rw [hE] at this
              exact this.through h1.1
            · have := ihE' s
              rw [hE] at this
              exact this.through h1.1
          · have := ihT (createNode (consume (logStep { st0 with depth := st0.depth + 1 }
              "E' → - T E'" "Match '-'")) "-" []).2
            rw [hT] at this
            exact this.through (by simpa using hcons)
          · have := ihT (createNode (consume (logStep { st0 with depth := st0.depth + 1 }
              "E' → - T E'" "Match '-'")) "-" []).2
            rw [hT] at this
            exact this.through (by simpa using hcons)
        · simp only [if_neg hm]
          exact RemSuf.ofOk (by simp [List.suffix_refl]) _
    · -- parseT
      intro st0
      simp only [parseT]
      rcases hF : parseF f (logStep { st0 with depth := st0.depth + 1 } "T → F T'" "Enter T")
        with ⟨fN, s⟩ | ⟨e, s⟩ | s <;> dsimp only
      · have h1 : RemSuf st0 (.ok fN s) := by
          have := ihF (logStep { st0 with depth := st0.depth + 1 } "T → F T'" "Enter T")
          rw [hF] at this
          exact this.through (by simp [List.suffix_refl])
        rcases hT : parseTPrime f s with ⟨tN, s2⟩ | ⟨e, s2⟩ | s2 <;> dsimp only
        · have h2 : RemSuf st0 (.ok tN s2) := by
            have := ihT' s
            rw [hT] at this
            exact this.through h1.1
          refine RemSuf.ofOk ?_ _
          simpa using h2.1
        · have := ihT' s
          rw [hT] at this
          exact this.through h1.1
        · have := ihT' s
          rw [hT] at this
          exact this.through h1.1
      · have := ihF (logStep { st0 with depth := st0.depth + 1 } "T → F T'" "Enter T")
        rw [hF] at this
        exact this.through (by simp [List.suffix_refl])
      · have := ihF (logStep { st0 with depth := st0.depth + 1 } "T → F T'" "Enter T")
        rw [hF] at this
        exact this.through (by simp [List.suffix_refl])
    · -- parseTPrime
      intro st0
      simp only [parseTPrime]
      by_cases hp : (peek { st0 with depth := st0.depth + 1 }.rem).ty = Ty.STAR
      · simp only [if_pos hp]
        have hcons : (consume (logStep { st0 with depth := st0.depth + 1 }
            "T' → * F T'" "Match '*'")).rem <:+ st0.rem := by
          simp [List.tail_suffix]
        rcases hF : parseF f (createNode (consume (logStep { st0 with depth := st0.depth + 1 }
            "T' → * F T'" "Match '*'")) "*" []).2 with ⟨fN, s⟩ | ⟨e, s⟩ | s <;> dsimp only
        · have h1 : RemSuf st0 (.ok fN s) := by
            have := ihF (createNode (consume (logStep { st0 with depth := st0.depth + 1 }
              "T' → * F T'" "Match '*'")) "*" []).2
            rw [hF] at this
            exact this.through (by simpa using hcons)
          rcases hT : parseTPrime f s with ⟨tN, s2⟩ | ⟨e, s2⟩ | s2 <;> dsimp only
          · have h2 : RemSuf st0 (.ok tN s2) := by
              have := ihT' s
              rw [hT] at this
              exact this.through h1.1
            refine RemSuf.ofOk ?_ _
            simpa using h2.1
          · have := ihT' s
            rw [hT] at this
            exact this.through h1.1
          · have := ihT' s
            rw [hT] at this
            exact this.through h1.1
        · have := ihF (createNode (consume (logStep { st0 with depth := st0.depth + 1 }
            "T' → * F T'" "Match '*'")) "*" []).2
          rw [hF] at this
          exact this.through (by simpa using hcons)
        · have := ihF (createNode (consume (logStep { st0 with depth := st0.depth + 1 }
            "T' → * F T'" "Match '*'")) "*" []).2
          rw [hF] at this
          exact this.through (by simpa using hcons)
      · simp only [if_neg hp]
        by_cases hm : (peek { st0 with depth := st0.depth + 1 }.rem).ty = Ty.SLASH
        · simp only [if_pos hm]
          have hcons : (consume (logStep { st0 with depth := st0.depth + 1 }
              "T' → / F T'" "Match '/'")).rem <:+ st0.rem := by
            simp [List.tail_suffix]
          rcases hF : parseF f (createNode (consume (logStep { st0 with depth := st0.depth + 1 }
              "T' → / F T'" "Match '/'")) "/" []).2 with ⟨fN, s⟩ | ⟨e, s⟩ | s <;> dsimp only
          · have h1 : RemSuf st0 (.ok fN s) := by
              have := ihF (createNode (consume (logStep { st0 with depth := st0.depth + 1 }
                "T' → / F T'" "Match '/'")) "/" []).2
              rw [hF] at this
              exact this.through (by simpa using hcons)
            rcases hT : parseTPrime f s with ⟨tN, s2⟩ | ⟨e, s2⟩ | s2 <;> dsimp only
            · have h2 : RemSuf st0 (.ok tN s2) := by
                have := ihT' s
                rw [hT] at this
                exact this.through h1.1
              refine RemSuf.ofOk ?_ _
              simpa using h2.1
            · have := ihT' s
              rw [hT] at this
              exact this.through h1.1
            · have := ihT' s
              rw [hT] at this
              exact this.through h1.1
          · have := ihF (createNode (consume (logStep { st0 with depth := st0.depth + 1 }
              "T' → / F T'" "Match '/'")) "/" []).2
            rw [hF] at this
            exact this.through (by simpa using hcons)
          · have := ihF (createNode (consume (logStep { st0 with depth := st0.depth + 1 }
              "T' → / F T'" "Match '/'")) "/" []).2
            rw [hF] at this
            exact this.through (by simpa using hcons)
        · simp only [if_neg hm]
          exact RemSuf.ofOk (by simp [List.suffix_refl]) _
    · -- parseF
      intro st0
      simp only [parseF]
      by_cases hlp : (peek { st0 with depth := st0.depth + 1 }.rem).ty = Ty.LPAREN
      · simp only [if_pos hlp]
        have hcons : (consume (logStep { st0 with depth := st0.depth + 1 }
            "F → ( E )" "Match '('")).rem <:+ st0.rem := by
          simp [List.tail_suffix]
        rcases hE : parseE f (createNode (consume (logStep { st0 with depth := st0.depth + 1 }
            "F → ( E )" "Match '('")) "(" []).2 with ⟨eN, s⟩ | ⟨e, s⟩ | s <;> dsimp only
        · have h1 : RemSuf st0 (.ok eN s) := by
            have := ihE (createNode (consume (logStep { st0 with depth := st0.depth + 1 }
              "F → ( E )" "Match '('")) "(" []).2
            rw [hE] at this
            exact this.through (by simpa using hcons)
          by_cases hrp : (peek s.rem).ty = Ty.RPAREN
          · simp only [if_pos hrp]
            refine RemSuf.ofOk ?_ _
            simp only [createNode_snd_rem, consume_rem, logStep_rem]
            exact (List.tail_suffix s.rem).trans h1.1
          · simp only [if_neg hrp]
            exact RemSuf.ofThrow h1.1 _
        · have := ihE (createNode (consume (logStep { st0 with depth := st0.depth + 1 }
            "F → ( E )" "Match '('")) "(" []).2
          rw [hE] at this
          exact this.through (by simpa using hcons)
        · have := ihE (createNode (consume (logStep { st0 with depth := st0.depth + 1 }
            "F → ( E )" "Match '('")) "(" []).2
          rw [hE] at this
          exact this.through (by simpa using hcons)
      · simp only [if_neg hlp]
        by_cases hnum : (peek { st0 with depth := st0.depth + 1 }.rem).ty = Ty.NUMBER
        · simp only [if_pos hnum]
          exact RemSuf.ofOk (by simpa using List.tail_suffix st0.rem) _
        · simp only [if_neg hnum]
          by_cases hid : (peek { st0 with depth := st0.depth + 1 }.rem).ty = Ty.ID
          · simp only [if_pos hid]
            exact RemSuf.ofOk (by simpa using List.tail_suffix st0.rem) _
          · simp only [if_neg hid]
            exact RemSuf.ofThrow (by simp [List.suffix_refl]) _

theorem rem_ne_nil_of_peek_ty {rem : List Token} {t : Ty} (h : (peek rem).ty = t)
    (hne : t ≠ Ty.EOF) : rem ≠ [] := by
  intro hj
  subst hj
  simp only [peek, List.headD_nil, synthEOF] at h
  exact hne h.symm

theorem tail_length_of_ne_nil {rem : List Token} (h : rem ≠ []) :
    rem.tail.length + 1 = rem.length := by
  cases rem with
  | nil => simp at h
  | cons a l => simp

/-- With fuel at least `4 * |remaining| + c` (where `c` depends on the
nonterminal), no recursive-descent function runs out of fuel; in
particular the fuel `parse` supplies is enough. -/
theorem no_fuelOut_all (f : Nat) :
    (∀ st, 4 * st.rem.length + 4 ≤ f → isFuelOut (parseE f st) = false) ∧
    (∀ st, 4 * st.rem.length + 1 ≤ f → isFuelOut (parseEPrime f st) = false) ∧
    (∀ st, 4 * st.rem.length + 3 ≤ f → isFuelOut (parseT f st) = false) ∧
    (∀ st, 4 * st.rem.length + 1 ≤ f → isFuelOut (parseTPrime f st) = false) ∧
    (∀ st, 4 * st.rem.length + 2 ≤ f → isFuelOut (parseF f st) = false) := by
  induction f with
  | zero =>
    refine ⟨?_, ?_, ?_, ?_, ?_⟩ <;> exact fun st h => by omega
  | succ f ih =>
    obtain ⟨ihE, ihE', ihT, ihT', ihF⟩ := ih
    refine ⟨?_, ?_, ?_, ?_, ?_⟩
    · -- parseE
      intro st0 hf
      simp only [parseE]
      rcases hT : parseT f (logStep { st0 with depth := st0.depth + 1 } "E → T E'" "Enter E")
        with ⟨tN, s⟩ | ⟨e, s⟩ | s <;> dsimp only
      · have hsuf : s.rem <:+ st0.rem := by
          have := (remSuf_all f).2.2.1
            (logStep { st0 with depth := st0.depth + 1 } "E → T E'" "Enter E")
          rw [hT] at this
          simpa using this.1
        have hlen := hsuf.length_le
        rcases hE : parseEPrime f s with ⟨eN, s2⟩ | ⟨e, s2⟩ | s2 <;> dsimp only
        · simp [isFuelOut]
        · simp [isFuelOut]
        · have := ihE' s (by omega)
          rw [hE] at this
          simpa [isFuelOut] using this
      · simp [isFuelOut]
      · have := ihT (logStep { st0 with depth := st0.depth + 1 } "E → T E'" "Enter E")
          (by simpa using Nat.le_of_succ_le_succ hf)
        rw [hT] at this
        simpa [isFuelOut] using this
    · -- parseEPrime
      intro st0 hf
      simp only [parseEPrime]
      by_cases hp : (peek { st0 with depth := st0.depth + 1 }.rem).ty = Ty.PLUS
      · simp only [if_pos hp]
        have hnil : st0.rem ≠ [] := rem_ne_nil_of_peek_ty (by simpa using hp) (by simp)
        have htl := tail_length_of_ne_nil hnil
        rcases hT : parseT f (createNode (consume (logStep { st0 with depth := st0.depth + 1 }
            "E' → + T E'" "Match '+'")) "+" []).2 with ⟨tN, s⟩ | ⟨e, s⟩ | s <;> dsimp only
        · have hsuf : s.rem <:+ st0.rem.tail := by
            have := (remSuf_all f).2.2.1 (createNode (consume
              (logStep { st0 with depth := st0.depth + 1 } "E' → + T E'" "Match '+'")) "+" []).2
            rw [hT] at this
            simpa using this.1
          have hlen := hsuf.length_le
          rcases hE : parseEPrime f s with ⟨eN, s2⟩ | ⟨e, s2⟩ | s2 <;> dsimp only
          · simp [isFuelOut]
          · simp [isFuelOut]
          · have := ihE' s (by omega)
            rw [hE] at this
            simpa [isFuelOut] using this
        · simp [isFuelOut]
        · have harg : 4 * (createNode (consume (logStep { st0 with depth := st0.depth + 1 }
              "E' → + T E'" "Match '+'")) "+" []).2.rem.length + 3 ≤ f := by
            simp only [createNode_snd_rem, consume_rem, logStep_rem]
            omega
          have := ihT (createNode (consume (logStep { st0 with depth := st0.depth + 1 }
              "E' → + T E'" "Match '+'")) "+" []).2 harg
          rw [hT] at this
          simpa [isFuelOut] using this
      · simp only [if_neg hp]
        by_cases hm : (peek { st0 with depth := st0.depth + 1 }.rem).ty = Ty.MINUS
        · simp only [if_pos hm]
          have hnil : st0.rem ≠ [] := rem_ne_nil_of_peek_ty (by simpa using hm) (by simp)
          have htl := tail_length_of_ne_nil hnil
          rcases hT : parseT f (createNode (consume (logStep { st0 with depth := st0.depth + 1 }
              "E' → - T E'" "Match '-'")) "-" []).2 with ⟨tN, s⟩ | ⟨e, s⟩ | s <;> dsimp only
          · have hsuf : s.rem <:+ st0.rem.tail := by
              have := (remSuf_all f).2.2.1 (createNode (consume
                (logStep { st0 with depth := st0.depth + 1 } "E' → - T E'" "Match '-'")) "-" []).2
              rw [hT] at this
              simpa using this.1
            have hlen := hsuf.length_le
            rcases hE : parseEPrime f s with ⟨eN, s2⟩ | ⟨e, s2⟩ | s2 <;> dsimp only
            · simp [isFuelOut]
            · simp [isFuelOut]
            · have := ihE' s (by omega)
              rw [hE] at this
              simpa [isFuelOut] using this
          · simp [isFuelOut]
          · have harg : 4 * (createNode (consume (logStep { st0 with depth := st0.depth + 1 }
                "E' → - T E'" "Match '-'")) "-" []).2.rem.length + 3 ≤ f := by
              simp only [createNode_snd_rem, consume_rem, logStep_rem]
              omega
            have := ihT (createNode (consume (logStep { st0 with depth := st0.depth + 1 }
                "E' → - T E'" "Match '-'")) "-" []).2 harg
            rw [hT] at this
            simpa [isFuelOut] using this
        · simp only [if_neg hm]
          simp [isFuelOut]
    · -- parseT
      intro st0 hf
      simp only [parseT]
      rcases hF : parseF f (logStep { st0 with depth := st0.depth + 1 } "T → F T'" "Enter T")
        with ⟨fN, s⟩ | ⟨e, s⟩ | s <;> dsimp only
      · have hsuf : s.rem <:+ st0.rem := by
          have := (remSuf_all f).2.2.2.2
            (logStep { st0 with depth := st0.depth + 1 } "T → F T'" "Enter T")
          rw [hF] at this
          simpa using this.1
        have hlen := hsuf.length_le
        rcases hT : parseTPrime f s with ⟨tN, s2⟩ | ⟨e, s2⟩ | s2 <;> dsimp only
        · simp [isFuelOut]
        · simp [isFuelOut]
        · have := ihT' s (by omega)
          rw [hT] at this
          simpa [isFuelOut] using this
      · simp [isFuelOut]
      · have := ihF (logStep { st0 with depth := st0.depth + 1 } "T → F T'" "Enter T")
          (by simpa using Nat.le_of_succ_le_succ hf)
        rw [hF] at this
        simpa [isFuelOut] using this
    · -- parseTPrime
      intro st0 hf
      simp only [parseTPrime]
      by_cases hp : (peek { st0 with depth := st0.depth + 1 }.rem).ty = Ty.STAR
      · simp only [if_pos hp]
        have hnil : st0.rem ≠ [] := rem_ne_nil_of_peek_ty (by simpa using hp) (by simp)
        have htl := tail_length_of_ne_nil hnil
        rcases hF : parseF f (createNode (consume (logStep { st0 with depth := st0.depth + 1 }
            "T' → * F T'" "Match '*'")) "*" []).2 with ⟨fN, s⟩ | ⟨e, s⟩ | s <;> dsimp only
        · have hsuf : s.rem <:+ st0.rem.tail := by
            have := (remSuf_all f).2.2.2.2 (createNode (consume
              (logStep { st0 with depth := st0.depth + 1 } "T' → * F T'" "Match '*'")) "*" []).2
            rw [hF] at this
            simpa using this.1
          have hlen := hsuf.length_le
          rcases hT : parseTPrime f s with ⟨tN, s2⟩ | ⟨e, s2⟩ | s2 <;> dsimp only
          · simp [isFuelOut]
          · simp [isFuelOut]
          · have := ihT' s (by omega)
            rw [hT] at this
            simpa [isFuelOut] using this
        · simp [isFuelOut]
        · have harg : 4 * (createNode (consume (logStep { st0 with depth := st0.depth + 1 }
              "T' → * F T'" "Match '*'")) "*" []).2.rem.length + 2 ≤ f := by
            simp only [createNode_snd_rem, consume_rem, logStep_rem]
            omega
          have := ihF (createNode (consume (logStep { st0 with depth := st0.depth + 1 }
              "T' → * F T'" "Match '*'")) "*" []).2 harg
          rw [hF] at this
          simpa [isFuelOut] using this
      · simp only [if_neg hp]
        by_cases hm : (peek { st0 with depth := st0.depth + 1 }.rem).ty = Ty.SLASH
        · simp only [if_pos hm]
          have hnil : st0.rem ≠ [] := rem_ne_nil_of_peek_ty (by simpa using hm) (by simp)
          have htl := tail_length_of_ne_nil hnil
          rcases hF : parseF f (createNode (consume (logStep { st0 with depth := st0.depth + 1 }
              "T' → / F T'" "Match '/'")) "/" []).2 with ⟨fN, s⟩ | ⟨e, s⟩ | s <;> dsimp only
          · have hsuf : s.rem <:+ st0.rem.tail := by
              have := (remSuf_all f).2.2.2.2 (createNode (consume
                (logStep { st0 with depth := st0.depth + 1 } "T' → / F T'" "Match '/'")) "/" []).2
              rw [hF] at this
              simpa using this.1
            have hlen := hsuf.length_le
            rcases hT : parseTPrime f s with ⟨tN, s2⟩ | ⟨e, s2⟩ | s2 <;> dsimp only
            · simp [isFuelOut]
            · simp [isFuelOut]
            · have := ihT' s (by omega)
              rw [hT] at this
              simpa [isFuelOut] using this
          · simp [isFuelOut]
          · have harg : 4 * (createNode (consume (logStep { st0 with depth := st0.depth + 1 }
                "T' → / F T'" "Match '/'")) "/" []).2.rem.length + 2 ≤ f := by
              simp only [createNode_snd_rem, consume_rem, logStep_rem]
              omega
            have := ihF (createNode (consume (logStep { st0 with depth := st0.depth + 1 }
                "T' → / F T'" "Match '/'")) "/" []).2 harg
            rw [hF] at this
            simpa [isFuelOut] using this
        · simp only [if_neg hm]
          simp [isFuelOut]
    · -- parseF
      intro st0 hf
      simp only [parseF]
      by_cases hlp : (peek { st0 with depth := st0.depth + 1 }.rem).ty = Ty.LPAREN
      · simp only [if_pos hlp]
        have hnil : st0.rem ≠ [] := rem_ne_nil_of_peek_ty (by simpa using hlp) (by simp)
        have htl := tail_length_of_ne_nil hnil
        rcases hE : parseE f (createNode (consume (logStep { st0 with depth := st0.depth + 1 }
            "F → ( E )" "Match '('")) "(" []).2 with ⟨eN, s⟩ | ⟨e, s⟩ | s <;> dsimp only
        · by_cases hrp : (peek s.rem).ty = Ty.RPAREN
          · simp [if_pos hrp, isFuelOut]
          · simp [if_neg hrp, throwErr, isFuelOut]
        · simp [isFuelOut]
        · have harg : 4 * (createNode (consume (logStep { st0 with depth := st0.depth + 1 }
              "F → ( E )" "Match '('")) "(" []).2.rem.length + 4 ≤ f := by
            simp only [createNode_snd_rem, consume_rem, logStep_rem]
            omega
          have := ihE (createNode (consume (logStep { st0 with depth := st0.depth + 1 }
              "F → ( E )" "Match '('")) "(" []).2 harg
          rw [hE] at this
          simpa [isFuelOut] using this
      · simp only [if_neg hlp]
        by_cases hnum : (peek { st0 with depth := st0.depth + 1 }.rem).ty = Ty.NUMBER
        · simp [if_pos hnum, isFuelOut]
        · simp only [if_neg hnum]
          by_cases hid : (peek { st0 with depth := st0.depth + 1 }.rem).ty = Ty.ID
          · simp [if_pos hid, isFuelOut]
          · simp [if_neg hid, throwErr, isFuelOut]

/-- The fuel `parse` supplies to `parseE` is sufficient. -/
theorem parseE_no_fuelOut (ts : List Token) :
    isFuelOut (parseE (initFuel ts) (initSt ts)) = false :=
  (no_fuelOut_all (initFuel ts)).1 (initSt ts) (by simp [initSt, initFuel])

/-! ## Parser lemmas: step-trace depth discipline -/

/-- Between consecutive logged steps, `depth` grows by at most one. -/
def UpChain (l : List Step) : Prop :=
  List.Chain' (fun a b => b.depth ≤ a.depth + 1) l

/-- Depth of the last logged step (`0` for an empty trace). -/
def lastD (l : List Step) : ℕ :=
  match l.getLast? with
  | none => 0
  | some s => s.depth

@[simp] theorem lastD_append_one (l : List Step) (s : Step) :
    lastD (l ++ [s]) = s.depth := by
  simp [lastD, List.getLast?_append]

theorem upChain_append_one {l : List Step} {s : Step}
    (hc : UpChain l) (hd : s.depth ≤ lastD l + 1) : UpChain (l ++ [s]) := by
  rw [UpChain, List.chain'_append]
  refine ⟨hc, by simp, ?_⟩
  intro x hx y hy
  simp only [List.head?_cons, Option.mem_def, Option.some.injEq] at hy
  subst hy
  rw [Option.mem_def] at hx
  have : lastD l = x.depth := by simp [lastD, hx]
  omega

theorem logStep_steps_eq (st : PSt) (r a : String) :
    (logStep st r a).steps = st.steps ++
      [⟨r, a, (peek st.rem).value, (peek st.rem).ty.str, st.depth, st.steps.length⟩] := rfl

/-- The trace-shape precondition threaded through the descent: the trace
so far respects the depth discipline and its last entry is at least as
deep as the current recursion depth. -/
def ChainPre (st : PSt) : Prop := UpChain st.steps ∧ st.depth ≤ lastD st.steps

/-- What each parse function guarantees about the trace: on normal return
the depth counter is restored and the last step is deeper than the entry
depth; on a thrown error the depth counter exceeds the last logged step's
depth by at most one (so the `✗ Parse Error` step keeps the discipline). -/
def ChainPost (st : PSt) : PRes PNode → Prop
  | .ok _ s' => UpChain s'.steps ∧ s'.depth = st.depth ∧ st.depth + 1 ≤ lastD s'.steps
  | .err _ s' => UpChain s'.steps ∧ s'.depth ≤ lastD s'.steps + 1
  | .fuelOut _ => True

theorem chainPre_log_bump {st0 : PSt} (h : ChainPre st0) (r a : String) :
    ChainPre (logStep { st0 with depth := st0.depth + 1 } r a) := by
  constructor
  · rw [logStep_steps_eq]
    exact upChain_append_one h.1 (by have := h.2; simp only; omega)
  · rw [logStep_steps_eq]
    simp

@[simp] theorem lastD_log_bump (st0 : PSt) (r a : String) :
    lastD (logStep { st0 with depth := st0.depth + 1 } r a).steps = st0.depth + 1 := by
  rw [logStep_steps_eq]
  simp

theorem chain_all (f : Nat) :
    (∀ st, ChainPre st → ChainPost st (parseE f st)) ∧
    (∀ st, ChainPre st → ChainPost st (parseEPrime f st)) ∧
    (∀ st, ChainPre st → ChainPost st (parseT f st)) ∧
    (∀ st, ChainPre st → ChainPost st (parseTPrime f st)) ∧
    (∀ st, ChainPre st → ChainPost st (parseF f st)) := by
  induction f with
  | zero =>
    refine ⟨?_, ?_, ?_, ?_, ?_⟩ <;> exact fun st _ => trivial
  | succ f ih =>
    obtain ⟨ihE, ihE', ihT, ihT', ihF⟩ := ih
    refine ⟨?_, ?_, ?_, ?_, ?_⟩
    · -- parseE
      intro st0 hpre
      simp only [parseE]
      have hpre1 := chainPre_log_bump hpre "E → T E'" "Enter E"
      rcases hT : parseT f (logStep { st0 with depth := st0.depth + 1 } "E → T E'" "Enter E")
        with ⟨tN, s⟩ | ⟨e, s⟩ | s <;> dsimp only
      · have hpT := ihT _ hpre1
        rw [hT] at hpT
        obtain ⟨hTc, hTd, hTl⟩ := hpT
        simp only [logStep_depth] at hTd hTl
        have hpre2 : ChainPre s := ⟨hTc, by omega⟩
        rcases hE : parseEPrime f s with ⟨eN, s2⟩ | ⟨e, s2⟩ | s2 <;> dsimp only
        · have hpE := ihE' _ hpre2
          rw [hE] at hpE
          obtain ⟨hEc, hEd, hEl⟩ := hpE
          refine ⟨?_, ?_, ?_⟩
          · rw [logStep_steps_eq]
            exact upChain_append_one (by simpa using hEc)
              (by simp only [createNode_snd_steps, createNode_snd_depth]; omega)
          · simp only [logStep_depth, createNode_snd_depth]
            omega
          · rw [logStep_steps_eq]
            simp only [createNode_snd_steps, createNode_snd_depth, lastD_append_one]
            omega
        · have hpE := ihE' _ hpre2
          rw [hE] at hpE
          exact hpE
        · trivial
      · have hpT := ihT _ hpre1
        rw [hT] at hpT
        exact hpT
      · trivial
    · -- parseEPrime
      intro st0 hpre
      simp only [parseEPrime]
      by_cases hp : (peek { st0 with depth := st0.depth + 1 }.rem).ty = Ty.PLUS
      · simp only [if_pos hp]
        have hpre1 : ChainPre (createNode (consume (logStep { st0 with depth := st0.depth + 1 }
            "E' → + T E'" "Match '+'")) "+" []).2 := by
          have := chainPre_log_bump hpre "E' → + T E'" "Match '+'"
          exact ⟨this.1, this.2⟩
        rcases hT : parseT f (createNode (consume (logStep { st0 with depth := st0.depth + 1 }
            "E' → + T E'" "Match '+'")) "+" []).2 with ⟨tN, s⟩ | ⟨e, s⟩ | s <;> dsimp only
        · have hpT := ihT _ hpre1
          rw [hT] at hpT
          obtain ⟨hTc, hTd, hTl⟩ := hpT
          simp only [createNode_snd_depth, consume_depth, logStep_depth] at hTd hTl
          have hpre2 : ChainPre s := ⟨hTc, by omega⟩
          rcases hE : parseEPrime f s with ⟨eN, s2⟩ | ⟨e, s2⟩ | s2 <;> dsimp only
          · have hpE := ihE' _ hpre2
            rw [hE] at hpE
            obtain ⟨hEc, hEd, hEl⟩ := hpE
            refine ⟨by simpa using hEc, by simp only [createNode_snd_depth]; omega, ?_⟩
            simp only [createNode_snd_steps, createNode_snd_depth]
            omega
          · have hpE := ihE' _ hpre2
            rw [hE] at hpE
            exact hpE
          · trivial
        · have hpT := ihT _ hpre1
          rw [hT] at hpT
          exact hpT
        · trivial
      · simp only [if_neg hp]
        by_cases hm : (peek { st0 with depth := st0.depth + 1 }.rem).ty = Ty.MINUS
        · simp only [if_pos hm]
          have hpre1 : ChainPre (createNode (consume (logStep { st0 with depth := st0.depth + 1 }
              "E' → - T E'" "Match '-'")) "-" []).2 := by
            have := chainPre_log_bump hpre "E' → - T E'" "Match '-'"
            exact ⟨this.1, this.2⟩
          rcases hT : parseT f (createNode (consume (logStep { st0 with depth := st0.depth + 1 }
              "E' → - T E'" "Match '-'")) "-" []).2 with ⟨tN, s⟩ | ⟨e, s⟩ | s <;> dsimp only
          · have hpT := ihT _ hpre1
            rw [hT] at hpT
            obtain ⟨hTc, hTd, hTl⟩ := hpT
            simp only [createNode_snd_depth, consume_depth, logStep_depth] at hTd hTl
            have hpre2 : ChainPre s := ⟨hTc, by omega⟩
            rcases hE : parseEPrime f s with ⟨eN, s2⟩ | ⟨e, s2⟩ | s2 <;> dsimp only
            · have hpE := ihE' _ hpre2
              rw [hE] at hpE
              obtain ⟨hEc, hEd, hEl⟩ := hpE
              refine ⟨by simpa using hEc, by simp only [createNode_snd_depth]; omega, ?_⟩
              simp only [createNode_snd_steps, createNode_snd_depth]
              omega
            · have hpE := ihE' _ hpre2
              rw [hE] at hpE
              exact hpE
            · trivial
          · have hpT := ihT _ hpre1
            rw [hT] at hpT
            exact hpT
          · trivial
        · simp only [if_neg hm]
          refine ⟨?_, by simp, ?_⟩
          · simp only [createNode_snd_steps]
            rw [logStep_steps_eq]
            exact upChain_append_one hpre.1 (by have := hpre.2; simp only; omega)
          · simp only [createNode_snd_steps, createNode_snd_depth]
            rw [logStep_steps_eq]
            simp
    · -- parseT
      intro st0 hpre
      simp only [parseT]
      have hpre1 := chainPre_log_bump hpre "T → F T'" "Enter T"
      rcases hF : parseF f (logStep { st0 with depth := st0.depth + 1 } "T → F T'" "Enter T")
        with ⟨fN, s⟩ | ⟨e, s⟩ | s <;> dsimp only
      · have hpF := ihF _ hpre1
        rw [hF] at hpF
        obtain ⟨hFc, hFd, hFl⟩ := hpF
        simp only [logStep_depth] at hFd hFl
        have hpre2 : ChainPre s := ⟨hFc, by omega⟩
        rcases hT : parseTPrime f s with ⟨tN, s2⟩ | ⟨e, s2⟩ | s2 <;> dsimp only
        · have hpT := ihT' _ hpre2
          rw [hT] at hpT
          obtain ⟨hTc, hTd, hTl⟩ := hpT
          refine ⟨?_, ?_, ?_⟩
          · rw [logStep_steps_eq]
            exact upChain_append_one (by simpa using hTc)
              (by simp only [createNode_snd_steps, createNode_snd_depth]; omega)
          · simp only [logStep_depth, createNode_snd_depth]
            omega
          · rw [logStep_steps_eq]
            simp only [createNode_snd_steps, createNode_snd_depth, lastD_append_one]
            omega
        · have hpT := ihT' _ hpre2
          rw [hT] at hpT
          exact hpT
        · trivial
      · have hpF := ihF _ hpre1
        rw [hF] at hpF
        exact hpF
      · trivial
    · -- parseTPrime
      intro st0 hpre
      simp only [parseTPrime]
      by_cases hp : (peek { st0 with depth := st0.depth + 1 }.rem).ty = Ty.STAR
      · simp only [if_pos hp]
        have hpre1 : ChainPre (createNode (consume (logStep { st0 with depth := st0.depth + 1 }
            "T' → * F T'" "Match '*'")) "*" []).2 := by
          have := chainPre_log_bump hpre "T' → * F T'" "Match '*'"
          exact ⟨this.1, this.2⟩
        rcases hF : parseF f (createNode (consume (logStep { st0 with depth := st0.depth + 1 }
            "T' → * F T'" "Match '*'")) "*" []).2 with ⟨fN, s⟩ | ⟨e, s⟩ | s <;> dsimp only
        · have hpF := ihF _ hpre1
          rw [hF] at hpF
          obtain ⟨hFc, hFd, hFl⟩ := hpF
          simp only [createNode_snd_depth, consume_depth, logStep_depth] at hFd hFl
          have hpre2 : ChainPre s := ⟨hFc, by omega⟩
          rcases hT : parseTPrime f s with ⟨tN, s2⟩ | ⟨e, s2⟩ | s2 <;> dsimp only
          · have hpT := ihT' _ hpre2
            rw [hT] at hpT
            obtain ⟨hTc, hTd, hTl⟩ := hpT
            refine ⟨by simpa using hTc, by simp only [createNode_snd_depth]; omega, ?_⟩
            simp only [createNode_snd_steps, createNode_snd_depth]
            omega
          · have hpT := ihT' _ hpre2
            rw [hT] at hpT
            exact hpT
          · trivial
        · have hpF := ihF _ hpre1
          rw [hF] at hpF
          exact hpF
        · trivial
      · simp only [if_neg hp]
        by_cases hm : (peek { st0 with depth := st0.depth + 1 }.rem).ty = Ty.SLASH
        · simp only [if_pos hm]
          have hpre1 : ChainPre (createNode (consume (logStep { st0 with depth := st0.depth + 1 }
              "T' → / F T'" "Match '/'")) "/" []).2 := by
            have := chainPre_log_bump hpre "T' → / F T'" "Match '/'"
            exact ⟨this.1, this.2⟩
          rcases hF : parseF f (createNode (consume (logStep { st0 with depth := st0.depth + 1 }
              "T' → / F T'" "Match '/'")) "/" []).2 with ⟨fN, s⟩ | ⟨e, s⟩ | s <;> dsimp only
          · have hpF := ihF _ hpre1
            rw [hF] at hpF
            obtain ⟨hFc, hFd, hFl⟩ := hpF
            simp only [createNode_snd_depth, consume_depth, logStep_depth] at hFd hFl
            have hpre2 : ChainPre s := ⟨hFc, by omega⟩
            rcases hT : parseTPrime f s with ⟨tN, s2⟩ | ⟨e, s2⟩ | s2 <;> dsimp only
            · have hpT := ihT' _ hpre2
              rw [hT] at hpT
              obtain ⟨hTc, hTd, hTl⟩ := hpT
              refine ⟨by simpa using hTc, by simp only [createNode_snd_depth]; omega, ?_⟩
              simp only [createNode_snd_steps, createNode_snd_depth]
              omega
            · have hpT := ihT' _ hpre2
              rw [hT] at hpT
              exact hpT
            · trivial
          · have hpF := ihF _ hpre1
            rw [hF] at hpF
            exact hpF
          · trivial
        · simp only [if_neg hm]
          refine ⟨?_, by simp, ?_⟩
          · simp only [createNode_snd_steps]
            rw [logStep_steps_eq]
            exact upChain_append_one hpre.1 (by have := hpre.2; simp only; omega)
          · simp only [createNode_snd_steps, createNode_snd_depth]
            rw [logStep_steps_eq]
            simp
    · -- parseF
      intro st0 hpre
      simp only [parseF]
      by_cases hlp : (peek { st0 with depth := st0.depth + 1 }.rem).ty = Ty.LPAREN
      · simp only [if_pos hlp]
        have hpre1 : ChainPre (createNode (consume (logStep { st0 with depth := st0.depth + 1 }
            "F → ( E )" "Match '('")) "(" []).2 := by
          have := chainPre_log_bump hpre "F → ( E )" "Match '('"
          exact ⟨this.1, this.2⟩
        rcases hE : parseE f (createNode (consume (logStep { st0 with depth := st0.depth + 1 }
            "F → ( E )" "Match '('")) "(" []).2 with ⟨eN, s⟩ | ⟨e, s⟩ | s <;> dsimp only
        · have hpE := ihE _ hpre1
          rw [hE] at hpE
          obtain ⟨hEc, hEd, hEl⟩ := hpE
          simp only [createNode_snd_depth, consume_depth, logStep_depth] at hEd hEl
          by_cases hrp : (peek s.rem).ty = Ty.RPAREN
          · simp only [if_pos hrp]
            refine ⟨?_, ?_, ?_⟩
            · simp only [createNode_snd_steps, consume_steps]
              rw [logStep_steps_eq]
              exact upChain_append_one hEc (by simp only; omega)
            · simp only [createNode_snd_depth, consume_depth, logStep_depth]
              omega
            · simp only [createNode_snd_steps, consume_steps]
              rw [logStep_steps_eq]
              simp only [lastD_append_one]
              omega
          · simp only [if_neg hrp]
            exact ⟨hEc, by omega⟩
        · have hpE := ihE _ hpre1
          rw [hE] at hpE
          exact hpE
        · trivial
      · simp only [if_neg hlp]
        by_cases hnum : (peek { st0 with depth := st0.depth + 1 }.rem).ty = Ty.NUMBER
        · simp only [if_pos hnum]
          refine ⟨?_, by simp, ?_⟩
          · simp only [createNode_snd_steps, consume_steps]
            rw [logStep_steps_eq]
            exact upChain_append_one hpre.1 (by have := hpre.2; simp only; omega)
          · simp only [createNode_snd_steps, createNode_snd_depth, consume_steps]
            rw [logStep_steps_eq]
            simp
        · simp only [if_neg hnum]
          by_cases hid : (peek { st0 with depth := st0.depth + 1 }.rem).ty = Ty.ID
          · simp only [if_pos hid]
            refine ⟨?_, by simp, ?_⟩
            · simp only [createNode_snd_steps, consume_steps]
              rw [logStep_steps_eq]
              exact upChain_append_one hpre.1 (by have := hpre.2; simp only; omega)
            · simp only [createNode_snd_steps, createNode_snd_depth, consume_steps]
              rw [logStep_steps_eq]
              simp
          · simp only [if_neg hid]
            exact ⟨hpre.1, by have := hpre.2; simp only; omega⟩

/-! ## Parser lemmas: node ids are assigned consecutively in creation
(post-)order starting from the counter's entry value -/

theorem range'_add (a m n : ℕ) :
    List.range' a m ++ List.range' (a + m) n = List.range' a (m + n) := by
  have h := List.range'_append a m n 1
  simpa [Nat.add_comm] using h

theorem range'_snoc (a n : ℕ) :
    List.range' a n ++ [a + n] = List.range' a (n + 1) := by
  have h := range'_add a n 1
  simpa [List.range'_one] using h

theorem range'_two (a : ℕ) : List.range' a 2 = [a, a + 1] := rfl

/-- What each parse function guarantees about node ids: on normal return
the id counter advanced by the node count of the returned tree, and the
ids of that tree in creation (post-)order are exactly the consecutive
values starting at the entry counter. -/
def IdsPost (st : PSt) : PRes PNode → Prop
  | .ok n s' => s'.nodeId = st.nodeId + sizeP n ∧
      postIds n = List.range' st.nodeId (sizeP n)
  | .err _ _ => True
  | .fuelOut _ => True

theorem ids_all (f : Nat) :
    (∀ st, IdsPost st (parseE f st)) ∧ (∀ st, IdsPost st (parseEPrime f st)) ∧
    (∀ st, IdsPost st (parseT f st)) ∧ (∀ st, IdsPost st (parseTPrime f st)) ∧
    (∀ st, IdsPost st (parseF f st)) := by
  induction f with
  | zero =>
    refine ⟨?_, ?_, ?_, ?_, ?_⟩ <;> exact fun st => trivial
  | succ f ih =>
    obtain ⟨ihE, ihE', ihT, ihT', ihF⟩ := ih
    refine ⟨?_, ?_, ?_, ?_, ?_⟩
    · -- parseE
      intro st0
      simp only [parseE]
      rcases hT : parseT f (logStep { st0 with depth := st0.depth + 1 } "E → T E'" "Enter E")
        with ⟨tN, s⟩ | ⟨e, s⟩ | s <;> dsimp only
      · have hpT := ihT (logStep { st0 with depth := st0.depth + 1 } "E → T E'" "Enter E")
        rw [hT] at hpT
        obtain ⟨hT1, hT2⟩ := hpT
        simp only [logStep_nodeId] at hT1 hT2
        rcases hE : parseEPrime f s with ⟨eN, s2⟩ | ⟨e, s2⟩ | s2 <;> dsimp only
        · have hpE := ihE' s
          rw [hE] at hpE
          obtain ⟨hE1, hE2⟩ := hpE
          rw [hT1] at hE1 hE2
          constructor
          · simp only [logStep_nodeId, createNode_snd_nodeId, createNode_fst, sizeP, sizePL]
            omega
          · simp only [createNode_fst, postIds, postIdsL, List.append_nil, sizeP, sizePL,
              Nat.add_zero]
            rw [hT2, hE2, hE1, range'_add]
            rw [show st0.nodeId + sizeP tN + sizeP eN =
              st0.nodeId + (sizeP tN + sizeP eN) from by omega]
            rw [range'_snoc]
        · trivial
        · trivial
      · trivial
      · trivial
    · -- parseEPrime
      intro st0
      simp only [parseEPrime]
      by_cases hp : (peek { st0 with depth := st0.depth + 1 }.rem).ty = Ty.PLUS
      · simp only [if_pos hp]
        rcases hT : parseT f (createNode (consume (logStep { st0 with depth := st0.depth + 1 }
            "E' → + T E'" "Match '+'")) "+" []).2 with ⟨tN, s⟩ | ⟨e, s⟩ | s <;> dsimp only
        · have hpT := ihT (createNode (consume (logStep { st0 with depth := st0.depth + 1 }
            "E' → + T E'" "Match '+'")) "+" []).2
          rw [hT] at hpT
          obtain ⟨hT1, hT2⟩ := hpT
          simp only [createNode_snd_nodeId, consume_nodeId, logStep_nodeId] at hT1 hT2
          rcases hE : parseEPrime f s with ⟨eN, s2⟩ | ⟨e, s2⟩ | s2 <;> dsimp only
          · have hpE := ihE' s
            rw [hE] at hpE
            obtain ⟨hE1, hE2⟩ := hpE
            rw [hT1] at hE1 hE2
            constructor
            · simp only [createNode_snd_nodeId, consume_nodeId, logStep_nodeId,
                createNode_fst, sizeP, sizePL]
              try omega
            · simp only [createNode_fst, createNode_snd_nodeId, consume_nodeId, logStep_nodeId,
                postIds, postIdsL, List.append_nil, sizeP, sizePL, Nat.add_zero,
                List.nil_append]
              rw [hT2, hE2, hE1]
              rw [range'_add]
              rw [show ([st0.nodeId] : List ℕ) = List.range' st0.nodeId 1 from by
                simp [List.range'_one]]
              rw [range'_add]
              rw [show st0.nodeId + 1 + sizeP tN + sizeP eN =
                st0.nodeId + (1 + (sizeP tN + sizeP eN)) from by omega]
              rw [range'_snoc]
          · trivial
          · trivial
        · trivial
        · trivial
      · simp only [if_neg hp]
        by_cases hm : (peek { st0 with depth := st0.depth + 1 }.rem).ty = Ty.MINUS
        · simp only [if_pos hm]
          rcases hT : parseT f (createNode (consume (logStep { st0 with depth := st0.depth + 1 }
              "E' → - T E'" "Match '-'")) "-" []).2 with ⟨tN, s⟩ | ⟨e, s⟩ | s <;> dsimp only
          · have hpT := ihT (createNode (consume (logStep { st0 with depth := st0.depth + 1 }
              "E' → - T E'" "Match '-'")) "-" []).2
            rw [hT] at hpT
            obtain ⟨hT1, hT2⟩ := hpT
            simp only [createNode_snd_nodeId, consume_nodeId, logStep_nodeId] at hT1 hT2
            rcases hE : parseEPrime f s with ⟨eN, s2⟩ | ⟨e, s2⟩ | s2 <;> dsimp only
            · have hpE := ihE' s
              rw [hE] at hpE
              obtain ⟨hE1, hE2⟩ := hpE
              rw [hT1] at hE1 hE2
              constructor
              · simp only [createNode_snd_nodeId, consume_nodeId, logStep_nodeId,
                  createNode_fst, sizeP, sizePL]
                omega
              · simp only [createNode_fst, createNode_snd_nodeId, consume_nodeId, logStep_nodeId,
                  postIds, postIdsL, List.append_nil, sizeP, sizePL, Nat.add_zero,
                  List.nil_append]
                rw [hT2, hE2, hE1]
                rw [range'_add]
                rw [show ([st0.nodeId] : List ℕ) = List.range' st0.nodeId 1 from by
                  simp [List.range'_one]]
                rw [range'_add]
                rw [show st0.nodeId + 1 + sizeP tN + sizeP eN =
                  st0.nodeId + (1 + (sizeP tN + sizeP eN)) from by omega]
                rw [range'_snoc]
            · trivial
            · trivial
          · trivial
          · trivial
        · simp only [if_neg hm]
          constructor
          · simp only [createNode_snd_nodeId, logStep_nodeId, createNode_fst, sizeP, sizePL]
            try omega
          · simp only [createNode_fst, createNode_snd_nodeId, logStep_nodeId,
              postIds, postIdsL, List.append_nil, sizeP, sizePL, Nat.add_zero, List.nil_append]
            rw [show (1 + 1 : ℕ) = 2 from rfl, range'_two]
            rfl
    · -- parseT
      intro st0
      simp only [parseT]
      rcases hF : parseF f (logStep { st0 with depth := st0.depth + 1 } "T → F T'" "Enter T")
        with ⟨fN, s⟩ | ⟨e, s⟩ | s <;> dsimp only
      · have hpF := ihF (logStep { st0 with depth := st0.depth + 1 } "T → F T'" "Enter T")
        rw [hF] at hpF
        obtain ⟨hF1, hF2⟩ := hpF
        simp only [logStep_nodeId] at hF1 hF2
        rcases hT : parseTPrime f s with ⟨tN, s2⟩ | ⟨e, s2⟩ | s2 <;> dsimp only
        · have hpT := ihT' s
          rw [hT] at hpT
          obtain ⟨hT1, hT2⟩ := hpT
          rw [hF1] at hT1 hT2
          constructor
          · simp only [logStep_nodeId, createNode_snd_nodeId, createNode_fst, sizeP, sizePL]
            omega
          · simp only [createNode_fst, postIds, postIdsL, List.append_nil, sizeP, sizePL,
              Nat.add_zero]
            rw [hF2, hT2, hT1, range'_add]
            rw [show st0.nodeId + sizeP fN + sizeP tN =
              st0.nodeId + (sizeP fN + sizeP tN) from by omega]
            rw [range'_snoc]
        · trivial
        · trivial
      · trivial
      · trivial
    · -- parseTPrime
      intro st0
      simp only [parseTPrime]
      by_cases hp : (peek { st0 with depth := st0.depth + 1 }.rem).ty = Ty.STAR
      · simp only [if_pos hp]
        rcases hF : parseF f (createNode (consume (logStep { st0 with depth := st0.depth + 1 }
            "T' → * F T'" "Match '*'")) "*" []).2 with ⟨fN, s⟩ | ⟨e, s⟩ | s <;> dsimp only
        · have hpF := ihF (createNode (consume (logStep { st0 with depth := st0.depth + 1 }
            "T' → * F T'" "Match '*'")) "*" []).2
          rw [hF] at hpF
          obtain ⟨hF1, hF2⟩ := hpF
          simp only [createNode_snd_nodeId, consume_nodeId, logStep_nodeId] at hF1 hF2
          rcases hT : parseTPrime f s with ⟨tN, s2⟩ | ⟨e, s2⟩ | s2 <;> dsimp only
          · have hpT := ihT' s
            rw [hT] at hpT
            obtain ⟨hT1, hT2⟩ := hpT
            rw [hF1] at hT1 hT2
            constructor
            · simp only [createNode_snd_nodeId, consume_nodeId, logStep_nodeId,
                createNode_fst, sizeP, sizePL]
              try omega
            · simp only [createNode_fst, createNode_snd_nodeId, consume_nodeId, logStep_nodeId,
                postIds, postIdsL, List.append_nil, sizeP, sizePL, Nat.add_zero,
                List.nil_append]
              rw [hF2, hT2, hT1]
              rw [range'_add]
              rw [show ([st0.nodeId] : List ℕ) = List.range' st0.nodeId 1 from by
                simp [List.range'_one]]
              rw [range'_add]
              rw [show st0.nodeId + 1 + sizeP fN + sizeP tN =
                st0.nodeId + (1 + (sizeP fN + sizeP tN)) from by omega]
              rw [range'_snoc]
          · trivial
          · trivial
        · trivial
        · trivial
      · simp only [if_neg hp]
        by_cases hm : (peek { st0 with depth := st0.depth + 1 }.rem).ty = Ty.SLASH
        · simp only [if_pos hm]
          rcases hF : parseF f (createNode (consume (logStep { st0 with depth := st0.depth + 1 }
              "T' → / F T'" "Match '/'")) "/" []).2 with ⟨fN, s⟩ | ⟨e, s⟩ | s <;> dsimp only
          · have hpF := ihF (createNode (consume (logStep { st0 with depth := st0.depth + 1 }
              "T' → / F T'" "Match '/'")) "/" []).2
            rw [hF] at hpF
            obtain ⟨hF1, hF2⟩ := hpF
            simp only [createNode_snd_nodeId, consume_nodeId, logStep_nodeId] at hF1 hF2
            rcases hT : parseTPrime f s with ⟨tN, s2⟩ | ⟨e, s2⟩ | s2 <;> dsimp only
            · have hpT := ihT' s
              rw [hT] at hpT
              obtain ⟨hT1, hT2⟩ := hpT
              rw [hF1] at hT1 hT2
              constructor
              · simp only [createNode_snd_nodeId, consume_nodeId, logStep_nodeId,
                  createNode_fst, sizeP, sizePL]
                omega
              · simp only [createNode_fst, createNode_snd_nodeId, consume_nodeId, logStep_nodeId,
                  postIds, postIdsL, List.append_nil, sizeP, sizePL, Nat.add_zero,
                  List.nil_append]
                rw [hF2, hT2, hT1]
                rw [range'_add]
                rw [show ([st0.nodeId] : List ℕ) = List.range' st0.nodeId 1 from by
                  simp [List.range'_one]]
                rw [range'_add]
                rw [show st0.nodeId + 1 + sizeP fN + sizeP tN =
                  st0.nodeId + (1 + (sizeP fN + sizeP tN)) from by omega]
                rw [range'_snoc]
            · trivial
            · trivial
          · trivial
          · trivial
        · simp only [if_neg hm]
          constructor
          · simp only [createNode_snd_nodeId, logStep_nodeId, createNode_fst, sizeP, sizePL]
            try omega
          · simp only [createNode_fst, createNode_snd_nodeId, logStep_nodeId,
              postIds, postIdsL, List.append_nil, sizeP, sizePL, Nat.add_zero, List.nil_append]
            rw [show (1 + 1 : ℕ) = 2 from rfl, range'_two]
            rfl
    · -- parseF
      intro st0
      simp only [parseF]
      by_cases hlp : (peek { st0 with depth := st0.depth + 1 }.rem).ty = Ty.LPAREN
      · simp only [if_pos hlp]
        rcases hE : parseE f (createNode (consume (logStep { st0 with depth := st0.depth + 1 }
            "F → ( E )" "Match '('")) "(" []).2 with ⟨eN, s⟩ | ⟨e, s⟩ | s <;> dsimp only
        · have hpE := ihE (createNode (consume (logStep { st0 with depth := st0.depth + 1 }
            "F → ( E )" "Match '('")) "(" []).2
          rw [hE] at hpE
          obtain ⟨hE1, hE2⟩ := hpE
          simp only [createNode_snd_nodeId, consume_nodeId, logStep_nodeId] at hE1 hE2
          by_cases hrp : (peek s.rem).ty = Ty.RPAREN
          · simp only [if_pos hrp]
            constructor
            · simp only [createNode_snd_nodeId, consume_nodeId, logStep_nodeId,
                createNode_fst, sizeP, sizePL]
              try omega
            · simp only [createNode_fst, createNode_snd_nodeId, consume_nodeId, logStep_nodeId,
                postIds, postIdsL, List.append_nil, sizeP, sizePL, Nat.add_zero,
                List.nil_append]
              rw [hE2, hE1]
              rw [range'_snoc]
              rw [show ([st0.nodeId] : List ℕ) = List.range' st0.nodeId 1 from by
                simp [List.range'_one]]
              rw [range'_add]
              rw [show st0.nodeId + 1 + sizeP eN + 1 =
                st0.nodeId + (1 + (sizeP eN + 1)) from by omega]
              rw [range'_snoc]
          · simp only [if_neg hrp]
            trivial
        · trivial
        · trivial
      · simp only [if_neg hlp]
        by_cases hnum : (peek { st0 with depth := st0.depth + 1 }.rem).ty = Ty.NUMBER
        · simp only [if_pos hnum]
          constructor
          · simp only [createNode_snd_nodeId, consume_nodeId, logStep_nodeId,
              createNode_fst, sizeP, sizePL]
            try omega
          · simp only [createNode_fst, createNode_snd_nodeId, consume_nodeId, logStep_nodeId,
              postIds, postIdsL, List.append_nil, sizeP, sizePL, Nat.add_zero, List.nil_append]
            rw [show (1 + 1 : ℕ) = 2 from rfl, range'_two]
            rfl
        · simp only [if_neg hnum]
          by_cases hid : (peek { st0 with depth := st0.depth + 1 }.rem).ty = Ty.ID
          · simp only [if_pos hid]
            constructor
            · simp only [createNode_snd_nodeId, consume_nodeId, logStep_nodeId,
                createNode_fst, sizeP, sizePL]
              try omega
            · simp only [createNode_fst, createNode_snd_nodeId, consume_nodeId, logStep_nodeId,
                postIds, postIdsL, List.append_nil, sizeP, sizePL, Nat.add_zero, List.nil_append]
              rw [show (1 + 1 : ℕ) = 2 from rfl, range'_two]
              rfl
          · have hid2 : ¬(peek st0.rem).ty = Ty.ID := by simpa using hid
            rw [if_neg hid2]
            trivial

/-! ## Tokenizer lemmas: shape of the error case -/

theorem getElem?_split {α : Type} (a b l : List α) (h : a ++ b = l) (k : ℕ) :
    l[a.length + k]? = b[k]? := by
  subst h
  rw [List.getElem?_append_right (by omega)]
  congr 1
  omega

/-- On failure, `scan` reports exactly the character at the failing
position, an empty token list, and `errorPos` equal to that position; the
character satisfies none of the scanner's dispatch tests. -/
theorem scan_error :
    ∀ (n : ℕ) (cs : List Char) (pos : ℕ), cs.length < n →
      ∀ msg, (scan n cs pos).error = some msg →
      ∃ k c, cs[k]? = some c ∧ msg = lexMsg c (pos + k) ∧
        (scan n cs pos).errorPos = some ((pos + k : ℕ) : Int) ∧
        (scan n cs pos).tokens = [] ∧ beginsNoToken c = true := by
  intro n
  induction n with
  | zero =>
    intro cs pos hlen
    exact absurd hlen (Nat.not_lt_zero _)
  | succ n ih =>
    intro cs pos hlen msg herr
    match cs with
    | [] => simp [scan] at herr
    | c :: rest =>
      rw [scan] at herr ⊢
      by_cases hws : isWs c
      · simp only [if_pos hws] at herr ⊢
        have hlen' : rest.length < n := by
          simp only [List.length_cons] at hlen; omega
        obtain ⟨k, c', hk, hmsg, hpos, htoks, hbad⟩ := ih rest (pos + 1) hlen' msg herr
        refine ⟨k + 1, c', by simpa using hk, ?_, ?_, htoks, hbad⟩
        · rw [hmsg]
          congr 1
          omega
        · rw [hpos]
          congr 1
          omega
      · simp only [if_neg hws] at herr ⊢
        rcases hst : singleTok c with _ | ty
        · simp only [hst] at herr ⊢
          by_cases hd : c.isDigit
          · simp only [if_pos hd] at herr ⊢
            rw [prependTok_error] at herr
            have hsplit := scanNumTail_append rest false
            have h1 : (scanNumTail rest false).1.length +
                (scanNumTail rest false).2.length = rest.length := by
              rw [← List.length_append, hsplit]
            have hl2 : (scanNumTail rest false).2.length < n := by
              simp only [List.length_cons] at hlen; omega
            obtain ⟨k, c', hk, hmsg, hpos, htoks, hbad⟩ :=
              ih (scanNumTail rest false).2 (pos + 1 + (scanNumTail rest false).1.length)
                hl2 msg herr
            rw [prependTok_eq_of_err _ _ (by rw [herr]; simp)]
            refine ⟨1 + (scanNumTail rest false).1.length + k, c', ?_, ?_, ?_, htoks, hbad⟩
            · rw [show 1 + (scanNumTail rest false).1.length + k =
                ((scanNumTail rest false).1.length + k) + 1 from by omega]
              rw [List.getElem?_cons_succ, getElem?_split _ _ _ hsplit k]
              exact hk
            · rw [hmsg]
              congr 1
              omega
            · rw [hpos]
              congr 2
              omega
          · simp only [if_neg hd] at herr ⊢
            by_cases hid : isIdStart c
            · simp only [if_pos hid] at herr ⊢
              rw [prependTok_error] at herr
              have hsplit := scanIdTail_append rest
              have h1 : (scanIdTail rest).1.length +
                  (scanIdTail rest).2.length = rest.length := by
                rw [← List.length_append, hsplit]
              have hl2 : (scanIdTail rest).2.length < n := by
                simp only [List.length_cons] at hlen; omega
              obtain ⟨k, c', hk, hmsg, hpos, htoks, hbad⟩ :=
                ih (scanIdTail rest).2 (pos + 1 + (scanIdTail rest).1.length) hl2 msg herr
              rw [prependTok_eq_of_err _ _ (by rw [herr]; simp)]
              refine ⟨1 + (scanIdTail rest).1.length + k, c', ?_, ?_, ?_, htoks, hbad⟩
              · rw [show 1 + (scanIdTail rest).1.length + k =
                  ((scanIdTail rest).1.length + k) + 1 from by omega]
                rw [List.getElem?_cons_succ, getElem?_split _ _ _ hsplit k]
                exact hk
              · rw [hmsg]
                congr 1
                omega
              · rw [hpos]
                congr 2
                omega
            · simp only [if_neg hid] at herr ⊢
              simp only [Option.some.injEq] at herr
              refine ⟨0, c, by simp, ?_, ?_, ?_, ?_⟩ <;> try trivial
              all_goals try exact herr.symm
              all_goals simp [beginsNoToken, hws, hst, hd, hid]
        · simp only [hst] at herr ⊢
          rw [prependTok_error] at herr
          have hlen' : rest.length < n := by
            simp only [List.length_cons] at hlen; omega
          obtain ⟨k, c', hk, hmsg, hpos, htoks, hbad⟩ := ih rest (pos + 1) hlen' msg herr
          rw [prependTok_eq_of_err _ _ (by rw [herr]; simp)]
          refine ⟨k + 1, c', by simpa using hk, ?_, ?_, htoks, hbad⟩
          · rw [hmsg]
            congr 1
            omega
          · rw [hpos]
            congr 1
            omega

/-- If the input contains a character that no token can contain (not
whitespace, operator, digit, dot, letter or underscore), `scan` fails, at
a position no later than that character's. -/
theorem scan_hard :
    ∀ (n : ℕ) (cs : List Char) (pos : ℕ), cs.length < n →
      ∀ k c, cs[k]? = some c → hardInvalid c = true →
      ∃ msg p, (scan n cs pos).error = some msg ∧ (scan n cs pos).errorPos = some p ∧
        p ≤ ((pos + k : ℕ) : Int) := by
  intro n
  induction n with
  | zero =>
    intro cs pos hlen
    exact absurd hlen (Nat.not_lt_zero _)
  | succ n ih =>
    intro cs pos hlen k c hk hbad
    match cs with
    | [] => simp at hk
    | c0 :: rest =>
      rw [scan]
      by_cases hws : isWs c0
      · simp only [if_pos hws]
        match k with
        | 0 =>
          rw [List.getElem?_cons_zero, Option.some.injEq] at hk
          subst hk
          simp [hardInvalid, beginsNoToken, hws] at hbad
        | k + 1 =>
          rw [List.getElem?_cons_succ] at hk
          have hlen' : rest.length < n := by
            simp only [List.length_cons] at hlen; omega
          obtain ⟨msg, p, he, hp, hle⟩ := ih rest (pos + 1) hlen' k c hk hbad
          exact ⟨msg, p, he, hp, by push_cast at hle ⊢; omega⟩
      · simp only [if_neg hws]
        rcases hst : singleTok c0 with _ | ty
        · simp only [hst]
          by_cases hd : c0.isDigit
          · simp only [if_pos hd]
            match k with
            | 0 =>
              rw [List.getElem?_cons_zero, Option.some.injEq] at hk
              subst hk
              simp [hardInvalid, beginsNoToken, hd] at hbad
            | k + 1 =>
              rw [List.getElem?_cons_succ] at hk
              have hsplit := scanNumTail_append rest false
              have h1 : (scanNumTail rest false).1.length +
                  (scanNumTail rest false).2.length = rest.length := by
                rw [← List.length_append, hsplit]
              by_cases hkle : k < (scanNumTail rest false).1.length
              · exfalso
                rw [← hsplit, List.getElem?_append_left hkle] at hk
                have hmem := List.getElem?_mem hk
                rcases scanNumTail_mem rest false c hmem with h | h
                · simp [hardInvalid, beginsNoToken, h] at hbad
                · simp [hardInvalid, h] at hbad
              · rw [← hsplit, List.getElem?_append_right (by omega)] at hk
                have hl2 : (scanNumTail rest false).2.length < n := by
                  simp only [List.length_cons] at hlen; omega
                obtain ⟨msg, p, he, hp, hle⟩ :=
                  ih (scanNumTail rest false).2 (pos + 1 + (scanNumTail rest false).1.length)
                    hl2 _ c hk hbad
                refine ⟨msg, p, ?_, ?_, ?_⟩
                · rw [prependTok_error]
                  exact he
                · rw [prependTok_errorPos]
                  exact hp
                · push_cast at hle ⊢
                  omega
          · simp only [if_neg hd]
            by_cases hid : isIdStart c0
            · simp only [if_pos hid]
              match k with
              | 0 =>
                rw [List.getElem?_cons_zero, Option.some.injEq] at hk
                subst hk
                simp [hardInvalid, beginsNoToken, hid] at hbad
              | k + 1 =>
                rw [List.getElem?_cons_succ] at hk
                have hsplit := scanIdTail_append rest
                have h1 : (scanIdTail rest).1.length +
                    (scanIdTail rest).2.length = rest.length := by
                  rw [← List.length_append, hsplit]
                by_cases hkle : k < (scanIdTail rest).1.length
                · exfalso
                  rw [← hsplit, List.getElem?_append_left hkle] at hk
                  have hmem := List.getElem?_mem hk
                  have hcont := scanIdTail_mem rest c hmem
                  simp only [isIdCont, Bool.or_eq_true] at hcont
                  rcases hcont with (h | h) | h
                  · simp [hardInvalid, beginsNoToken, isIdStart, h] at hbad
                  · simp [hardInvalid, beginsNoToken, h] at hbad
                  · simp [hardInvalid, beginsNoToken, isIdStart, h] at hbad
                · rw [← hsplit, List.getElem?_append_right (by omega)] at hk
                  have hl2 : (scanIdTail rest).2.length < n := by
                    simp only [List.length_cons] at hlen; omega
                  obtain ⟨msg, p, he, hp, hle⟩ :=
                    ih (scanIdTail rest).2 (pos + 1 + (scanIdTail rest).1.length)
                      hl2 _ c hk hbad
                  refine ⟨msg, p, ?_, ?_, ?_⟩
                  · rw [prependTok_error]
                    exact he
                  · rw [prependTok_errorPos]
                    exact hp
                  · push_cast at hle ⊢
                    omega
            · simp only [if_neg hid]
              exact ⟨lexMsg c0 pos, pos, rfl, rfl, by push_cast; omega⟩
        · simp only [hst]
          match k with
          | 0 =>
            rw [List.getElem?_cons_zero, Option.some.injEq] at hk
            subst hk
            simp [hardInvalid, beginsNoToken, hst] at hbad
          | k + 1 =>
            rw [List.getElem?_cons_succ] at hk
            have hlen' : rest.length < n := by
              simp only [List.length_cons] at hlen; omega
            obtain ⟨msg, p, he, hp, hle⟩ := ih rest (pos + 1) hlen' k c hk hbad
            refine ⟨msg, p, ?_, ?_, ?_⟩
            · rw [prependTok_error]
              exact he
            · rw [prependTok_errorPos]
              exact hp
            · push_cast at hle ⊢
              omega

/-! ## Tree-layout lemmas -/

mutual

theorem assignDepth_eraseT : ∀ (t : TNode) (d : ℕ),
    eraseT (assignDepth t d) = eraseT t
  | ⟨lab, cs, i, x, dp⟩, d => by
    simp only [assignDepth, eraseT, assignDepthL_eraseTL cs (d + 1)]

theorem assignDepthL_eraseTL : ∀ (cs : List TNode) (d : ℕ),
    eraseTL (assignDepthL cs d) = eraseTL cs
  | [], _ => rfl
  | c :: cs, d => by
    simp only [assignDepthL, eraseTL, assignDepth_eraseT c d, assignDepthL_eraseTL cs d]

end

mutual

theorem assignX_eraseT : ∀ (t : TNode) (x : ℚ), eraseT ((assignX t x).1) = eraseT t
  | ⟨lab, [], i, sx, d⟩, x => by simp [assignX, eraseT, eraseTL]
  | ⟨lab, c :: cs, i, sx, d⟩, x => by
    simp only [assignX, eraseT, assignXL_eraseTL (c :: cs) x]

theorem assignXL_eraseTL : ∀ (cs : List TNode) (x : ℚ),
    eraseTL ((assignXL cs x).1) = eraseTL cs
  | [], _ => rfl
  | c :: cs, x => by
    simp only [assignXL, eraseTL, assignX_eraseT c x,
      assignXL_eraseTL cs ((assignX c x).2)]

end

mutual

theorem assignDepth_congr : ∀ (t1 t2 : TNode), eraseT t1 = eraseT t2 →
    ∀ d, eraseX (assignDepth t1 d) = eraseX (assignDepth t2 d)
  | ⟨l1, cs1, i1, x1, d1⟩, ⟨l2, cs2, i2, x2, d2⟩, h, d => by
    simp only [eraseT, TNode.mk.injEq, and_true] at h
    obtain ⟨hl, hcs, hi⟩ := h
    simp only [assignDepth, eraseX, TNode.mk.injEq]
    refine ⟨hl, assignDepthL_congr cs1 cs2 hcs (d + 1), hi, ?_, ?_⟩ <;> trivial

theorem assignDepthL_congr : ∀ (cs1 cs2 : List TNode), eraseTL cs1 = eraseTL cs2 →
    ∀ d, eraseXL (assignDepthL cs1 d) = eraseXL (assignDepthL cs2 d)
  | [], [], _, _ => rfl
  | [], _ :: _, h, _ => by simp [eraseTL] at h
  | _ :: _, [], h, _ => by simp [eraseTL] at h
  | c1 :: cs1, c2 :: cs2, h, d => by
    simp only [eraseTL, List.cons.injEq] at h
    simp only [assignDepthL, eraseXL, List.cons.injEq]
    exact ⟨assignDepth_congr c1 c2 h.1 d, assignDepthL_congr cs1 cs2 h.2 d⟩

end

mutual

theorem assignX_congr : ∀ (u v : TNode), eraseX u = eraseX v →
    ∀ x, assignX u x = assignX v x
  | ⟨l1, [], i1, x1, d1⟩, ⟨l2, [], i2, x2, d2⟩, h, x => by
    simp only [eraseX, eraseXL, TNode.mk.injEq, and_true, true_and] at h
    obtain ⟨hl, hi, hd⟩ := h
    simp [assignX, hl, hi, hd]
  | ⟨l1, [], i1, x1, d1⟩, ⟨l2, _ :: _, i2, x2, d2⟩, h, x => by
    simp [eraseX, eraseXL] at h
  | ⟨l1, _ :: _, i1, x1, d1⟩, ⟨l2, [], i2, x2, d2⟩, h, x => by
    simp [eraseX, eraseXL] at h
  | ⟨l1, c1 :: cs1, i1, x1, d1⟩, ⟨l2, c2 :: cs2, i2, x2, d2⟩, h, x => by
    simp only [eraseX, TNode.mk.injEq, and_true, true_and] at h
    obtain ⟨hl, hcs, hi, hd⟩ := h
    have hxl := assignXL_congr (c1 :: cs1) (c2 :: cs2) hcs x
    simp only [assignX]
    rw [hl, hi, hd, hxl]

theorem assignXL_congr : ∀ (cs1 cs2 : List TNode), eraseXL cs1 = eraseXL cs2 →
    ∀ x, assignXL cs1 x = assignXL cs2 x
  | [], [], _, _ => rfl
  | [], _ :: _, h, _ => by simp [eraseXL] at h
  | _ :: _, [], h, _ => by simp [eraseXL] at h
  | c1 :: cs1, c2 :: cs2, h, x => by
    simp only [eraseXL, List.cons.injEq] at h
    simp only [assignXL]
    rw [assignX_congr c1 c2 h.1 x, assignXL_congr cs1 cs2 h.2 ((assignX c2 x).2)]

end

mutual

theorem collect_nodes : ∀ (t : TNode) (acc : CollSt),
    (collect t acc).nodes = acc.nodes ++ emitNodes t
  | ⟨lab, cs, i, x, d⟩, acc => by
    simp only [collect, emitNodes]
    rw [collectKids_nodes]
    simp

theorem collectKids_nodes : ∀ (pid : ℕ) (px py : ℚ) (cs : List TNode) (acc : CollSt),
    (collectKids pid px py cs acc).nodes = acc.nodes ++ emitNodesL cs
  | _, _, _, [], acc => by simp [collectKids, emitNodesL]
  | pid, px, py, c :: cs, acc => by
    simp only [collectKids, emitNodesL]
    rw [collectKids_nodes, collect_nodes]
    simp

end

mutual

theorem emitNodes_leaf_filter : ∀ (t : TNode),
    ((emitNodes t).filter (fun n => n.isLeaf)).map (fun n => n.x) = leafXsT t
  | ⟨lab, [], i, x, d⟩ => by
    simp [emitNodes, emitNodesL, mkLNode, leafXsT]
  | ⟨lab, c :: cs, i, x, d⟩ => by
    simp only [emitNodes, leafXsT, List.filter_cons]
    have hnl : (mkLNode ⟨lab, c :: cs, i, x, d⟩).isLeaf = false := by simp [mkLNode]
    simp only [hnl, Bool.false_eq_true, if_false]
    exact emitNodesL_leaf_filter (c :: cs)

theorem emitNodesL_leaf_filter : ∀ (cs : List TNode),
    ((emitNodesL cs).filter (fun n => n.isLeaf)).map (fun n => n.x) = leafXsTL cs
  | [] => rfl
  | c :: cs => by
    simp only [emitNodesL, leafXsTL, List.filter_append, List.map_append]
    rw [emitNodes_leaf_filter c, emitNodesL_leaf_filter cs]

end

mutual

theorem assignX_next : ∀ (t : TNode) (x : ℚ),
    (assignX t x).2 = x + (NODE_WIDTH + MIN_SIBLING_SEP) * numLeavesT t
  | ⟨lab, [], i, sx, d⟩, x => by
    simp [assignX, numLeavesT]
    ring
  | ⟨lab, c :: cs, i, sx, d⟩, x => by
    simp only [assignX, numLeavesT]
    exact assignXL_next (c :: cs) x

theorem assignXL_next : ∀ (cs : List TNode) (x : ℚ),
    (assignXL cs x).2 = x + (NODE_WIDTH + MIN_SIBLING_SEP) * numLeavesTL cs
  | [], x => by simp [assignXL, numLeavesTL]
  | c :: cs, x => by
    simp only [assignXL, numLeavesTL]
    rw [assignXL_next cs ((assignX c x).2), assignX_next c x]
    push_cast
    ring

end

theorem arithSeq_append : ∀ (m : ℕ) (a : ℚ) (n : ℕ),
    arithSeq a m ++ arithSeq (a + (NODE_WIDTH + MIN_SIBLING_SEP) * m) n =
      arithSeq a (m + n) := by
  intro m
  induction m with
  | zero =>
    intro a n
    simp [arithSeq]
  | succ m ih =>
    intro a n
    simp only [arithSeq, List.cons_append]
    rw [show a + (NODE_WIDTH + MIN_SIBLING_SEP) * ((m : ℕ) + 1 : ℕ) =
      (a + (NODE_WIDTH + MIN_SIBLING_SEP)) + (NODE_WIDTH + MIN_SIBLING_SEP) * m from by
        push_cast; ring]
    rw [ih]
    rw [show m + 1 + n = (m + n) + 1 from by omega]
    rfl

mutual

theorem assignX_leafXs : ∀ (t : TNode) (x : ℚ),
    leafXsT ((assignX t x).1) = arithSeq (x + NODE_WIDTH / 2) (numLeavesT t)
  | ⟨lab, [], i, sx, d⟩, x => by
    simp [assignX, leafXsT, numLeavesT, arithSeq]
  | ⟨lab, c :: cs, i, sx, d⟩, x => by
    simp only [assignX, assignXL, numLeavesT, numLeavesTL, leafXsT, leafXsTL]
    rw [assignX_leafXs c x, assignXL_leafXs cs ((assignX c x).2), assignX_next c x]
    rw [show (x + (NODE_WIDTH + MIN_SIBLING_SEP) * (numLeavesT c : ℚ)) + NODE_WIDTH / 2 =
      (x + NODE_WIDTH / 2) + (NODE_WIDTH + MIN_SIBLING_SEP) * (numLeavesT c : ℕ) from by
        ring]
    rw [arithSeq_append]

theorem assignXL_leafXs : ∀ (cs : List TNode) (x : ℚ),
    leafXsTL ((assignXL cs x).1) = arithSeq (x + NODE_WIDTH / 2) (numLeavesTL cs)
  | [], x => rfl
  | c :: cs, x => by
    simp only [assignXL, leafXsTL, numLeavesTL]
    rw [assignX_leafXs c x, assignXL_leafXs cs ((assignX c x).2), assignX_next c x]
    rw [show (x + (NODE_WIDTH + MIN_SIBLING_SEP) * (numLeavesT c : ℚ)) + NODE_WIDTH / 2 =
      (x + NODE_WIDTH / 2) + (NODE_WIDTH + MIN_SIBLING_SEP) * (numLeavesT c : ℕ) from by
        ring]
    rw [arithSeq_append]

end

mutual

theorem assignX_midOK : ∀ (t : TNode) (x : ℚ), midOK ((assignX t x).1) = true
  | ⟨lab, [], i, sx, d⟩, x => by simp [assignX, midOK]
  | ⟨lab, c :: cs, i, sx, d⟩, x => by
    simp only [assignX, assignXL, midOK, Bool.and_eq_true]
    constructor
    · rw [beq_iff_eq]
      simp only [Option.getD_some]
      ring
    · have h1 := assignX_midOK c x
      have h2 := assignXL_midOK cs ((assignX c x).2)
      simp only [midOKL, Bool.and_eq_true]
      exact ⟨h1, h2⟩

theorem assignXL_midOK : ∀ (cs : List TNode) (x : ℚ), midOKL ((assignXL cs x).1) = true
  | [], _ => rfl
  | c :: cs, x => by
    simp only [assignXL, midOKL, Bool.and_eq_true]
    exact ⟨assignX_midOK c x, assignXL_midOK cs ((assignX c x).2)⟩

end

theorem spacedBy_arithSeq : ∀ (n : ℕ) (a : ℚ),
    spacedBy (NODE_WIDTH + MIN_SIBLING_SEP) (arithSeq a n) = true := by
  intro n
  induction n with
  | zero => intro a; rfl
  | succ n ih =>
    intro a
    match n with
    | 0 => rfl
    | m + 1 =>
      simp only [arithSeq, spacedBy, Bool.and_eq_true]
      constructor
      · rw [beq_iff_eq]
      · have := ih (a + (NODE_WIDTH + MIN_SIBLING_SEP))
        simpa [arithSeq] using this

theorem computeTreeLayoutM_snd (t : TNode) :
    (computeTreeLayoutM (some t)).2 = some (layoutTree t) := rfl

theorem computeTreeLayoutM_nodes (t : TNode) :
    (computeTreeLayoutM (some t)).1.nodes = emitNodes (layoutTree t) := by
  simp only [computeTreeLayoutM]
  rw [collect_nodes]
  rfl

theorem layoutTree_congr {t1 t2 : TNode} (h : eraseT t1 = eraseT t2) :
    layoutTree t1 = layoutTree t2 := by
  unfold layoutTree
  rw [assignX_congr _ _ (assignDepth_congr t1 t2 h 0) 0]

theorem eraseT_layoutTree (t : TNode) : eraseT (layoutTree t) = eraseT t := by
  unfold layoutTree
  rw [assignX_eraseT, assignDepth_eraseT]

theorem computeTreeLayoutM_congr {t1 t2 : TNode} (h : eraseT t1 = eraseT t2) :
    (computeTreeLayoutM (some t1)).1 = (computeTreeLayoutM (some t2)).1 := by
  simp only [computeTreeLayoutM]
  rw [layoutTree_congr h]

/-! ## Claims -/

/-- C1, counterexample: `tokenize("1.2.3")` does **not** return the token
list `[NUMBER "1.2"]` — the error return discards the accumulated tokens
and returns an empty list. -/
theorem c1_counterexample :
    (tokenize "1.2.3").tokens ≠ [⟨Ty.NUMBER, "1.2", 0, 3⟩] ∧
    (tokenize "1.2.3").tokens = [] := by
  constructor
  · decide
  · decide

/-- C1, amended: `tokenize("1.2.3")` returns an **empty** token list
together with the lexical error `Unexpected character '.' at position 3`
and `errorPos` 3; the second `.` does stop the number at `1.2` (as
`tokenize "1.2"` shows), but the NUMBER token is discarded by the error
return. -/
theorem c1_amended :
    tokenize "1.2.3" =
      ⟨[], some "Unexpected character '.' at position 3", some 3⟩ ∧
    (tokenize "1.2").tokens =
      [⟨Ty.NUMBER, "1.2", 0, 3⟩, ⟨Ty.EOF, "EOF", 3, 3⟩] := by
  constructor
  · decide
  · decide

/-- C2, counterexample: `computeTreeLayout` does not leave the input tree
unchanged — on a single-node tree it writes the `_x` and `_depth`
properties into the node. -/
theorem c2_counterexample :
    (computeTreeLayoutM (some ⟨"E", [], 0, none, none⟩)).2 ≠
      some (⟨"E", [], 0, none, none⟩ : TNode) := by
  intro h
  rw [show (computeTreeLayoutM (some ⟨"E", [], 0, none, none⟩)).2 =
    some (⟨"E", [], 0, some 0, some 0⟩ : TNode) from rfl] at h
  simp at h

/-- C2, amended: `computeTreeLayout` writes only the scratch properties
`_x` and `_depth` into the tree's nodes — label, id and child structure
are unchanged — and no layout state persists between calls: the layout
result depends only on the non-scratch part of the tree, so a second call
(on the mutated tree, or on any tree with equal non-scratch part) returns
the identical layout. -/
theorem c2_amended :
    (∀ t : TNode, eraseT (layoutTree t) = eraseT t ∧
      (computeTreeLayoutM (some t)).2 = some (layoutTree t)) ∧
    (∀ t1 t2 : TNode, eraseT t1 = eraseT t2 →
      (computeTreeLayoutM (some t1)).1 = (computeTreeLayoutM (some t2)).1) ∧
    (∀ t : TNode, (computeTreeLayoutM (some (layoutTree t))).1 =
      (computeTreeLayoutM (some t)).1) :=
  ⟨fun t => ⟨eraseT_layoutTree t, rfl⟩,
   fun _ _ h => computeTreeLayoutM_congr h,
   fun t => computeTreeLayoutM_congr (eraseT_layoutTree t)⟩

/-- C2 witness: the amended claim applied to two concrete trees that
differ only in scratch properties. -/
theorem c2_witness :
    (computeTreeLayoutM (some ⟨"E", [], 0, some 5, some 7⟩)).1 =
      (computeTreeLayoutM (some ⟨"E", [], 0, none, none⟩)).1 :=
  c2_amended.2.1 _ _ rfl

/-- C3, counterexample: on the token stream of `"3+4"` the step trace
contains two consecutive steps whose depths differ by 2 (the `E' → ε`
step at depth 3 is followed by `Exit E` at depth 1), so depth does not
change by at most 1 between consecutive steps. -/
theorem c3_counterexample :
    stepsAdjOk (parse [⟨Ty.NUMBER, "3", 0, 1⟩, ⟨Ty.PLUS, "+", 1, 2⟩,
      ⟨Ty.NUMBER, "4", 2, 3⟩, ⟨Ty.EOF, "EOF", 3, 3⟩]).steps = false := by
  decide

/-- C3, amended: between consecutive steps of any `parse` trace the depth
**increases** by at most 1 (every descent into a nonterminal logs a step),
but it can **decrease** by more than 1, because `parseEPrime`/`parseTPrime`
return without logging an exit step. -/
theorem c3_amended (ts : List Token) :
    List.Chain' (fun a b => b.depth ≤ a.depth + 1) (parse ts).steps := by
  have hpre : ChainPre (initSt ts) := by
    constructor
    · exact List.chain'_nil
    · simp [initSt, lastD]
  have hpost := (chain_all (initFuel ts)).1 (initSt ts) hpre
  unfold parse parseRun
  rcases hE : parseE (initFuel ts) (initSt ts) with ⟨n, s⟩ | ⟨e, s⟩ | s <;>
    rw [hE] at hpost <;> dsimp only
  · obtain ⟨hc, hd, hl⟩ := hpost
    simp only [initSt] at hd
    by_cases heof : (peek s.rem).ty = Ty.EOF
    · simp only [if_pos heof]
      rw [logStep_steps_eq]
      exact upChain_append_one hc (by simp only; omega)
    · simp only [if_neg heof]
      rw [logStep_steps_eq]
      exact upChain_append_one hc (by simp only; omega)
  · obtain ⟨hc, hd⟩ := hpost
    rw [logStep_steps_eq]
    exact upChain_append_one hc (by simp only; omega)
  · exact List.chain'_nil

/-- C4: whenever the `parseE` run inside `parse` returns normally but the
lookahead afterwards is not EOF, `parse` fails with a syntax error whose
message expects "end of expression", returning a null tree — trailing
tokens are never ignored. -/
theorem c4 (ts : List Token) (h : parsedEButTrailing ts = true) :
    (parse ts).tree = none ∧
    ∃ tok, (parse ts).error = some (mkMessage ⟨"end of expression", tok⟩) ∧
      ∃ a b, (parse ts).error = some (a ++ "end of expression" ++ b) := by
  unfold parsedEButTrailing at h
  unfold parse parseRun
  rcases hE : parseE (initFuel ts) (initSt ts) with ⟨n, s⟩ | ⟨e, s⟩ | s <;>
    rw [hE] at h
  · have hne : (peek s.rem).ty ≠ Ty.EOF := by
      simp only [Bool.not_eq_true'] at h
      simpa using h
    dsimp only
    rw [if_neg hne]
    dsimp only
    refine ⟨rfl, peek s.rem, rfl, ?_⟩
    refine ⟨"Syntax Error" ++
      (if 0 ≤ (peek s.rem).pos then " at position " ++ Int.repr (peek s.rem).pos else "") ++
      ": Expected ",
      ", but found " ++
      (if (peek s.rem).ty = Ty.EOF then "end of input"
       else "'" ++ (peek s.rem).value ++ "'"), ?_⟩
    unfold mkMessage
    simp only [String.append_assoc]
  · simp at h
  · simp at h

/-- C4 witness: the token stream of `"3 4"`. -/
theorem c4_witness :
    (parse [⟨Ty.NUMBER, "3", 0, 1⟩, ⟨Ty.NUMBER, "4", 2, 3⟩,
        ⟨Ty.EOF, "EOF", 3, 3⟩]).tree = none ∧
    ∃ tok, (parse [⟨Ty.NUMBER, "3", 0, 1⟩, ⟨Ty.NUMBER, "4", 2, 3⟩,
        ⟨Ty.EOF, "EOF", 3, 3⟩]).error = some (mkMessage ⟨"end of expression", tok⟩) ∧
      ∃ a b, (parse [⟨Ty.NUMBER, "3", 0, 1⟩, ⟨Ty.NUMBER, "4", 2, 3⟩,
        ⟨Ty.EOF, "EOF", 3, 3⟩]).error = some (a ++ "end of expression" ++ b) :=
  c4 _ (by decide)

/-- C5: whenever `parse` fails, it returns a null tree, the accumulated
step trace ending in a `✗ Parse Error` step that carries the error
message, and `errorPos` equal to the offending token's position — where
the offending token is a token of the stream or the synthetic EOF (whose
position is `-1`); the error is data, not an exception. -/
theorem c5 (ts : List Token) (msg : String) (h : (parse ts).error = some msg) :
    (parse ts).tree = none ∧
    (∃ pre tv tt d n, (parse ts).steps =
      pre ++ [⟨"✗ Parse Error", msg, tv, tt, d, n⟩]) ∧
    ∃ e : PErr, msg = mkMessage e ∧ (parse ts).errorPos = some e.token.pos ∧
      (e.token ∈ ts ∨ e.token = synthEOF) := by
  have hsuf := (remSuf_all (initFuel ts)).1 (initSt ts)
  unfold parse parseRun at h ⊢
  rcases hE : parseE (initFuel ts) (initSt ts) with ⟨n, s⟩ | ⟨e, s⟩ | s <;>
    rw [hE] at h hsuf <;> dsimp only at h ⊢
  · by_cases heof : (peek s.rem).ty = Ty.EOF
    · rw [if_pos heof] at h
      simp at h
    · rw [if_neg heof] at h ⊢
      dsimp only at h ⊢
      have hmsg := Option.some.inj h
      refine ⟨rfl, ?_, ?_⟩
      · rw [logStep_steps_eq]
        exact ⟨s.steps, _, _, _, _, by rw [hmsg]⟩
      · refine ⟨⟨"end of expression", peek s.rem⟩, hmsg.symm, rfl, ?_⟩
        rcases peek_mem_or_synth s.rem with hm | hm
        · exact Or.inl ((by simpa [initSt] using hsuf.1 : s.rem <:+ ts).subset hm)
        · exact Or.inr hm
  · have hmsg := Option.some.inj h
    refine ⟨rfl, ?_, ?_⟩
    · rw [logStep_steps_eq]
      exact ⟨s.steps, _, _, _, _, by rw [hmsg]⟩
    · refine ⟨e, hmsg.symm, rfl, ?_⟩
      have := hsuf.2 e s rfl
      simpa [initSt] using this
  · simp at h

/-- C5 witness: the token stream of `"3 4"` with its error message. -/
theorem c5_witness :
    (parse [⟨Ty.NUMBER, "3", 0, 1⟩, ⟨Ty.NUMBER, "4", 2, 3⟩,
        ⟨Ty.EOF, "EOF", 3, 3⟩]).tree = none ∧
    (∃ pre tv tt d n, (parse [⟨Ty.NUMBER, "3", 0, 1⟩, ⟨Ty.NUMBER, "4", 2, 3⟩,
        ⟨Ty.EOF, "EOF", 3, 3⟩]).steps = pre ++
        [⟨"✗ Parse Error",
          "Syntax Error at position 2: Expected end of expression, but found '4'",
          tv, tt, d, n⟩]) ∧
    ∃ e : PErr,
      "Syntax Error at position 2: Expected end of expression, but found '4'" =
        mkMessage e ∧
      (parse [⟨Ty.NUMBER, "3", 0, 1⟩, ⟨Ty.NUMBER, "4", 2, 3⟩,
        ⟨Ty.EOF, "EOF", 3, 3⟩]).errorPos = some e.token.pos ∧
      (e.token ∈ [⟨Ty.NUMBER, "3", 0, 1⟩, ⟨Ty.NUMBER, "4", 2, 3⟩,
        ⟨Ty.EOF, "EOF", 3, 3⟩] ∨ e.token = synthEOF) :=
  c5 _ _ (by decide)

/-- C6: on every successful tokenization the returned list ends with
exactly one EOF token, whose value is the string `"EOF"` and whose start
and end positions equal the input length; no other EOF token occurs; and
`tokenize ""` returns exactly `[EOF]` with a null error. -/
theorem c6 :
    (∀ s : String, (tokenize s).error = none →
      ∃ pre, (tokenize s).tokens =
          pre ++ [⟨Ty.EOF, "EOF", (s.length : Int), (s.length : Int)⟩] ∧
        ∀ t ∈ pre, t.ty ≠ Ty.EOF) ∧
    tokenize "" = ⟨[⟨Ty.EOF, "EOF", 0, 0⟩], none, none⟩ := by
  constructor
  · intro s h
    obtain ⟨pre, hpre, hno⟩ :=
      scan_success (s.data.length + 1) s.data 0 (Nat.lt_succ_self _) h
    refine ⟨pre, ?_, hno⟩
    have hcast : ((0 : ℕ) : Int) + ((s.data.length : ℕ) : Int) = (s.length : Int) := by
      rw [show s.length = s.data.length from rfl]
      omega
    rw [show tokenize s = scan (s.data.length + 1) s.data 0 from rfl, hpre, hcast]
    rfl
  · decide

/-- C6 witness: `"1+2"` tokenizes successfully. -/
theorem c6_witness :
    ∃ pre, (tokenize "1+2").tokens =
        pre ++ [⟨Ty.EOF, "EOF", (("1+2" : String).length : Int),
          (("1+2" : String).length : Int)⟩] ∧
      ∀ t ∈ pre, t.ty ≠ Ty.EOF :=
  c6.1 "1+2" (by decide)

/-- C7, counterexample: `'.'` begins no valid token (the scanner's
`Unexpected character` branch fires on it at a token boundary), yet
`tokenize "1.2"` — an input containing it — succeeds, so tokenization
does not abort at the first such character. -/
theorem c7_counterexample :
    beginsNoToken '.' = true ∧ (tokenize "1.2").error = none := by
  constructor
  · decide
  · decide

/-- C7, amended: whenever `tokenize` fails it reports exactly the
character at the failing position — empty token list, message exactly
`Unexpected character '<ch>' at position <pos>`, and `errorPos` that
position, with the character one that begins no token; and any input
containing a character that can belong to **no** token (not whitespace,
operator, digit, dot, letter or underscore) does fail, at a position no
later than that character's; in particular `tokenize "1$2"` reports
position 1.  (A dot can be absorbed into a preceding NUMBER token, which
is why an input whose only invalid-starter characters are dots can
still tokenize successfully.) -/
theorem c7_amended :
    (∀ (s : String) (msg : String), (tokenize s).error = some msg →
      ∃ k c, s.data[k]? = some c ∧ msg = lexMsg c k ∧
        (tokenize s).errorPos = some (k : Int) ∧
        (tokenize s).tokens = [] ∧ beginsNoToken c = true) ∧
    (∀ (s : String) (k : ℕ) (c : Char), s.data[k]? = some c →
      hardInvalid c = true →
      ∃ msg p, (tokenize s).error = some msg ∧ (tokenize s).errorPos = some p ∧
        p ≤ (k : Int)) ∧
    tokenize "1$2" = ⟨[], some "Unexpected character '$' at position 1", some 1⟩ := by
  refine ⟨?_, ?_, by decide⟩
  · intro s msg h
    obtain ⟨k, c, hk, hmsg, hpos, htoks, hbad⟩ :=
      scan_error (s.data.length + 1) s.data 0 (Nat.lt_succ_self _) msg h
    exact ⟨k, c, hk, by simpa using hmsg, by simpa using hpos, htoks, hbad⟩
  · intro s k c hk hbad
    obtain ⟨msg, p, he, hp, hle⟩ :=
      scan_hard (s.data.length + 1) s.data 0 (Nat.lt_succ_self _) k c hk hbad
    exact ⟨msg, p, he, hp, by simpa using hle⟩

/-- C7 witness: the amended claim applied at `"1.2.3"` (failing branch)
and `"1$2"` (hard-invalid branch). -/
theorem c7_witness :
    (∃ k c, ("1.2.3" : String).data[k]? = some c ∧
      "Unexpected character '.' at position 3" = lexMsg c k ∧
      (tokenize "1.2.3").errorPos = some (k : Int) ∧
      (tokenize "1.2.3").tokens = [] ∧ beginsNoToken c = true) ∧
    (∃ msg p, (tokenize "1$2").error = some msg ∧
      (tokenize "1$2").errorPos = some p ∧ p ≤ ((1 : ℕ) : Int)) :=
  ⟨c7_amended.1 "1.2.3" _ (by decide),
   c7_amended.2.1 "1$2" 1 '$' (by decide) (by decide)⟩

/-- C8: in every computed layout the leaf nodes' x-coordinates are spaced
by exactly `NODE_WIDTH + MIN_SIBLING_SEP` in left-to-right order (hence
strictly increasing), and every node with children sits at the midpoint
of its first and last child's x-coordinate. -/
theorem c8 (t : TNode) :
    spacedBy (NODE_WIDTH + MIN_SIBLING_SEP)
      (leafXs ((computeTreeLayoutM (some t)).1.nodes)) = true ∧
    midOK (layoutTree t) = true ∧
    (computeTreeLayoutM (some t)).2 = some (layoutTree t) := by
  refine ⟨?_, ?_, rfl⟩
  · unfold leafXs
    rw [computeTreeLayoutM_nodes, emitNodes_leaf_filter]
    unfold layoutTree
    rw [assignX_leafXs]
    exact spacedBy_arithSeq _ _
  · unfold layoutTree
    exact assignX_midOK _ _

/-- C9: a `parse` call's result does not depend on the module state left
by any previous call (the resets overwrite it wholesale), and when a tree
is returned its node ids, read in creation (post-)order, are exactly
`0, 1, …, n-1` — so every call restarts ids at 0. -/
theorem c9 (ts : List Token) (g1 g2 : PSt) :
    (parseCall ts g1).1 = (parseCall ts g2).1 ∧
    treeIdsOk ((parseCall ts g1).1.tree) = true := by
  refine ⟨rfl, ?_⟩
  have hids := (ids_all (initFuel ts)).1 (initSt ts)
  unfold parseCall parseRun
  rcases hE : parseE (initFuel ts) (initSt ts) with ⟨n, s⟩ | ⟨e, s⟩ | s <;>
    rw [hE] at hids <;> dsimp only
  · obtain ⟨h1, h2⟩ := hids
    simp only [initSt] at h2
    by_cases heof : (peek s.rem).ty = Ty.EOF
    · rw [if_pos heof]
      simp only [treeIdsOk]
      rw [h2, List.range_eq_range']
      simp
    · rw [if_neg heof]
      rfl
  · rfl
  · rfl

/-- A `ParseError` whose token is positionless produces a message with no
position clause: it starts directly with `Syntax Error: `. -/
theorem mkMessage_neg_pos (e : PErr) (h : e.token.pos < 0) :
    ∃ rest, mkMessage e = "Syntax Error: " ++ rest := by
  unfold mkMessage
  rw [if_neg (by omega)]
  refine ⟨"Expected " ++ e.expected ++ ", but found " ++
    (if e.token.ty = Ty.EOF then "end of input"
     else "'" ++ e.token.value ++ "'"), ?_⟩
  rw [show ("Syntax Error" ++ "" ++ ": Expected " : String) =
    "Syntax Error: " ++ "Expected " from by decide]
  simp only [String.append_assoc]

/-- C10: `parse` terminates on every token array (the fuel it supplies is
proved sufficient); reading past the end of the array yields the synthetic
EOF token with position `-1`; an error at a positionless token is returned
as data with `errorPos = -1` and a message with no position clause; in
particular the EOF-less array for `"(1"` gives exactly that. -/
theorem c10 :
    (∀ ts : List Token, isFuelOut (parseE (initFuel ts) (initSt ts)) = false) ∧
    (peek [] = synthEOF ∧ synthEOF.pos = -1) ∧
    (∀ (ts : List Token) (msg : String) (p : Int),
      (parse ts).error = some msg → (parse ts).errorPos = some p → p < 0 →
      ∃ rest, msg = "Syntax Error: " ++ rest) ∧
    ((parse [⟨Ty.LPAREN, "(", 0, 1⟩, ⟨Ty.NUMBER, "1", 1, 2⟩]).error =
      some "Syntax Error: Expected ')', but found end of input" ∧
     (parse [⟨Ty.LPAREN, "(", 0, 1⟩, ⟨Ty.NUMBER, "1", 1, 2⟩]).errorPos =
      some (-1) ∧
     (parse [⟨Ty.LPAREN, "(", 0, 1⟩, ⟨Ty.NUMBER, "1", 1, 2⟩]).tree = none) := by
  refine ⟨parseE_no_fuelOut, ⟨rfl, rfl⟩, ?_, by decide, by decide, rfl⟩
  intro ts msg p h hp hneg
  unfold parse parseRun at h hp
  rcases hE : parseE (initFuel ts) (initSt ts) with ⟨n, s⟩ | ⟨e, s⟩ | s <;>
    rw [hE] at h hp <;> dsimp only at h hp
  · by_cases heof : (peek s.rem).ty = Ty.EOF
    · rw [if_pos heof] at h
      simp at h
    · rw [if_neg heof] at h hp
      dsimp only at h hp
      have hmsg := Option.some.inj h
      have hpp := Option.some.inj hp
      rw [← hmsg]
      exact mkMessage_neg_pos _ (by simpa [hpp] using hneg)
  · have hmsg := Option.some.inj h
    have hpp := Option.some.inj hp
    rw [← hmsg]
    exact mkMessage_neg_pos _ (by simpa [hpp] using hneg)
  · simp at h

/-- C10 witness: the EOF-less token array for `"(1"`. -/
theorem c10_witness :
    ∃ rest, "Syntax Error: Expected ')', but found end of input" =
      "Syntax Error: " ++ rest :=
  c10.2.2.1 [⟨Ty.LPAREN, "(", 0, 1⟩, ⟨Ty.NUMBER, "1", 1, 2⟩]
    "Syntax Error: Expected ')', but found end of input" (-1)
    (by decide) (by decide) (by decide)

end RDP
